import Mathlib

/-!
Verification of the dirculese rule engine (main.go) against its
natural-language specification.

The embedding works over `Str := List Char` (Go strings) and a small
filesystem model `Fs` mapping normalized path-component lists to entries.
Go library functions used by the source (strings.Split, strings.Index,
strings.TrimLeft/TrimRight/TrimSuffix, filepath.Ext) are embedded
faithfully below; the three rule handlers (ExtensionHandler,
PrefixHandler, SuffixHandler) and the rule sequencer (Directory.Ruler)
are then transcribed statement by statement from main.go.
-/

namespace Dirculese

/-- Go strings, as lists of characters. -/
abbrev Str := List Char

/-- Build a `Str` from a Lean string literal. -/
def str (s : String) : Str := s.data

/-- Embeds Go strings.Index (first index at which sep occurs in s,
scanning left to right; sep = "" gives index 0), returning none instead
of -1 when there is no occurrence. -/
def goIndex (s sep : Str) : Option Nat :=
  if sep.isPrefixOf s then some 0
  else
    match s with
    | [] => none
    | _ :: t => (goIndex t sep).map (· + 1)

/-- Fuelled worker for `goSplit` (the fuel only serves termination; any
fuel above s.length behaves identically, see goSplitF_fuel). -/
def goSplitF (sep : Str) : Nat → Str → List Str
  | 0, s => [s]
  | fuel + 1, s =>
    match goIndex s sep with
    | none => [s]
    | some i => s.take i :: goSplitF sep fuel (s.drop (i + sep.length))

/-- Embeds Go strings.Split: split around every non-overlapping,
leftmost-first occurrence of sep; an empty sep explodes the string into
its characters. -/
def goSplit (s sep : Str) : List Str :=
  if sep = [] then s.map (fun c => [c]) else goSplitF sep s.length s

/-- Embeds Go strings.TrimLeft (cutset semantics: drop leading
characters that belong to the cutset). -/
def goTrimLeft (s cutset : Str) : Str :=
  s.dropWhile (fun c => decide (c ∈ cutset))

/-- Embeds Go strings.TrimRight (cutset semantics: drop trailing
characters that belong to the cutset). -/
def goTrimRight (s cutset : Str) : Str :=
  (s.reverse.dropWhile (fun c => decide (c ∈ cutset))).reverse

/-- Embeds Go strings.TrimSuffix (remove one copy of the suffix when
present). -/
def goTrimSuffix (s sfx : Str) : Str :=
  if sfx.isSuffixOf s then s.take (s.length - sfx.length) else s

/-- Embeds Go filepath.Ext / path.Ext (identical on Unix names): the
suffix of the name starting at the final dot, scanning backwards and
stopping at a path separator; empty when there is no dot. -/
def goFilepathExt (name : Str) : Str :=
  let tail := name.reverse.takeWhile (fun c => decide (c ≠ '/' ∧ c ≠ '.'))
  match (name.reverse.drop tail.length).head? with
  | some c => if c = '.' then '.' :: tail.reverse else []
  | none => []

/-- The base name used by PrefixHandler/SuffixHandler (main.go:318,406):
strings.TrimSuffix(f.Name(), path.Ext(f.Name())). -/
def baseNameOf (name : Str) : Str := goTrimSuffix name (goFilepathExt name)

/-- The extension string computed by ExtensionHandler (main.go:240):
strings.TrimLeft(filepath.Ext(f.Name()), "."). -/
def fileExtensionOf (name : Str) : Str := goTrimLeft (goFilepathExt name) ['.']

/-- ExtensionHandler's match test (main.go:242): membership of the
extension in the rule's extension set (the Go map built from
r.extensions). -/
def extMatches (exts : List Str) (name : Str) : Bool :=
  decide (fileExtensionOf name ∈ exts)

/-- Modelled from the spec: the text after the last dot in a name, empty
when the name contains no dot (spec section 4.1 / 8, the definition of
extension(n)). -/
def specExtension (n : Str) : Str :=
  if ('.' : Char) ∈ n then (n.reverse.takeWhile (fun c => decide (c ≠ '.'))).reverse
  else []

/-- Modelled from the spec: the substring of s strictly before the first
occurrence of d (s itself when d does not occur). -/
def specBeforeFirst (s d : Str) : Str :=
  match goIndex s d with
  | some i => s.take i
  | none => s

/-- Modelled from the spec: the substring of s strictly after the first
occurrence of d (empty when d does not occur). -/
def specAfterFirst (s d : Str) : Str :=
  match goIndex s d with
  | some i => s.drop (i + d.length)
  | none => []

/-! ### Facts about goIndex: it finds the earliest occurrence. -/

/-- Bridge between the executable prefix test and the prefix relation. -/
theorem isPrefixOf_eq_true_iff {l₁ l₂ : Str} : l₁.isPrefixOf l₂ = true ↔ l₁ <+: l₂ :=
  List.isPrefixOf_iff_prefix

theorem goIndex_some_le {s sep : Str} {i : Nat} (h : goIndex s sep = some i) :
    i ≤ s.length := by
  induction s generalizing i with
  | nil =>
    rw [goIndex] at h
    by_cases hp : sep.isPrefixOf [] <;> simp [hp] at h
    omega
  | cons a t ih =>
    rw [goIndex] at h
    by_cases hp : sep.isPrefixOf (a :: t)
    · simp [hp] at h
      omega
    · simp [hp] at h
      obtain ⟨j, hj, rfl⟩ := h
      have := ih hj
      simp
      omega

theorem goIndex_some_found {s sep : Str} {i : Nat} (h : goIndex s sep = some i) :
    sep <+: s.drop i := by
  induction s generalizing i with
  | nil =>
    rw [goIndex] at h
    by_cases hp : sep.isPrefixOf [] <;> simp [hp] at h
    · subst h
      simpa [isPrefixOf_eq_true_iff] using hp
  | cons a t ih =>
    rw [goIndex] at h
    by_cases hp : sep.isPrefixOf (a :: t)
    · simp [hp] at h
      subst h
      simpa [isPrefixOf_eq_true_iff] using hp
    · simp [hp] at h
      obtain ⟨j, hj, rfl⟩ := h
      simpa using ih hj

theorem goIndex_some_min {s sep : Str} {i : Nat} (h : goIndex s sep = some i) :
    ∀ j < i, ¬ sep <+: s.drop j := by
  induction s generalizing i with
  | nil =>
    rw [goIndex] at h
    by_cases hp : sep.isPrefixOf [] <;> simp [hp] at h
    omega
  | cons a t ih =>
    rw [goIndex] at h
    by_cases hp : sep.isPrefixOf (a :: t)
    · simp [hp] at h
      omega
    · simp [hp] at h
      obtain ⟨j, hj, rfl⟩ := h
      intro k hk
      cases k with
      | zero =>
        simpa [isPrefixOf_eq_true_iff] using hp
      | succ k =>
        simpa using ih hj k (by omega)

theorem goIndex_none {s sep : Str} (h : goIndex s sep = none) :
    ∀ j, ¬ sep <+: s.drop j := by
  induction s with
  | nil =>
    rw [goIndex] at h
    by_cases hp : sep.isPrefixOf [] <;> simp [hp] at h
    intro j
    simpa [isPrefixOf_eq_true_iff] using hp
  | cons a t ih =>
    rw [goIndex] at h
    by_cases hp : sep.isPrefixOf (a :: t) <;> simp [hp] at h
    intro j
    cases j with
    | zero =>
      simpa [isPrefixOf_eq_true_iff] using hp
    | succ j =>
      simpa using ih h j

theorem goIndex_eq_some_of {s sep : Str} {i : Nat} (hpre : sep <+: s.drop i)
    (hmin : ∀ j < i, ¬ sep <+: s.drop j) : goIndex s sep = some i := by
  match h : goIndex s sep with
  | none => exact absurd hpre (goIndex_none h i)
  | some k =>
    rcases Nat.lt_trichotomy k i with hlt | rfl | hgt
    · exact absurd (goIndex_some_found h) (hmin k hlt)
    · rfl
    · exact absurd hpre (goIndex_some_min h i hgt)

/-! ### Facts about goSplit. -/

theorem goIndex_some_add_le {s sep : Str} {i : Nat} (_hsep : sep ≠ [])
    (h : goIndex s sep = some i) : i + sep.length ≤ s.length := by
  have hpre := goIndex_some_found h
  have hle : sep.length ≤ (s.drop i).length := hpre.length_le
  have hi := goIndex_some_le h
  simp at hle
  by_cases hx : i ≤ s.length
  · omega
  · omega

theorem goSplitF_fuel {sep : Str} (hsep : sep ≠ []) :
    ∀ fuel₁ fuel₂ s, s.length ≤ fuel₁ → s.length ≤ fuel₂ →
      goSplitF sep fuel₁ s = goSplitF sep fuel₂ s := by
  intro fuel₁
  induction fuel₁ with
  | zero =>
    intro fuel₂ s h1 h2
    have hs : s = [] := by
      cases s with
      | nil => rfl
      | cons a t => simp at h1
    subst hs
    cases fuel₂ with
    | zero => rfl
    | succ n =>
      have : goIndex [] sep = none := by
        rw [goIndex]
        have : sep.isPrefixOf [] = false := by
          cases sep with
          | nil => exact absurd rfl hsep
          | cons a t => rfl
        simp [this]
      simp [goSplitF, this]
  | succ n ih =>
    intro fuel₂ s h1 h2
    cases fuel₂ with
    | zero =>
      have hs : s = [] := by
        cases s with
        | nil => rfl
        | cons a t => simp at h2
      subst hs
      have : goIndex [] sep = none := by
        rw [goIndex]
        have : sep.isPrefixOf [] = false := by
          cases sep with
          | nil => exact absurd rfl hsep
          | cons a t => rfl
        simp [this]
      simp [goSplitF, this]
    | succ m =>
      show goSplitF sep (n + 1) s = goSplitF sep (m + 1) s
      rcases hidx : goIndex s sep with - | i
      · simp [goSplitF, hidx]
      · have hadd := goIndex_some_add_le hsep hidx
        have hslen : 1 ≤ sep.length := by
          cases sep with
          | nil => exact absurd rfl hsep
          | cons a t => simp
        have hdrop : (s.drop (i + sep.length)).length ≤ n := by
          simp
          omega
        have hdrop₂ : (s.drop (i + sep.length)).length ≤ m := by
          simp
          omega
        simp only [goSplitF, hidx]
        exact congrArg (List.cons (s.take i)) (ih m _ hdrop hdrop₂)

theorem goSplit_eq_of_none {s sep : Str} (hsep : sep ≠ [])
    (h : goIndex s sep = none) : goSplit s sep = [s] := by
  rw [goSplit, if_neg hsep]
  cases s with
  | nil => simp [goSplitF]
  | cons a t => simp [goSplitF, h]

theorem goSplit_eq_of_some {s sep : Str} (hsep : sep ≠ []) {i : Nat}
    (h : goIndex s sep = some i) :
    goSplit s sep = s.take i :: goSplit (s.drop (i + sep.length)) sep := by
  have hadd := goIndex_some_add_le hsep h
  have hslen : 1 ≤ sep.length := by
    cases sep with
    | nil => exact absurd rfl hsep
    | cons a t => simp
  rw [goSplit, goSplit, if_neg hsep, if_neg hsep]
  cases s with
  | nil =>
    exfalso
    have h0 : i + sep.length ≤ 0 := hadd
    omega
  | cons a t =>
    simp only [List.length_cons, goSplitF, h]
    refine congrArg (List.cons ((a :: t).take i)) ?_
    have hdrop : ((a :: t : Str).drop (i + sep.length)).length ≤ t.length := by
      simp at hadd ⊢
      omega
    exact goSplitF_fuel hsep t.length _ _ hdrop (le_refl _)

theorem goSplit_ne_nil {s sep : Str} (hsep : sep ≠ []) : goSplit s sep ≠ [] := by
  rcases hidx : goIndex s sep with - | i
  · rw [goSplit_eq_of_none hsep hidx]
    simp
  · rw [goSplit_eq_of_some hsep hidx]
    simp

theorem goSplit_length_one {s sep : Str} (hsep : sep ≠ [])
    (h : goIndex s sep = none) : (goSplit s sep).length = 1 := by
  rw [goSplit_eq_of_none hsep h]
  rfl

theorem goSplit_length_gt_one {s sep : Str} (hsep : sep ≠ []) {i : Nat}
    (h : goIndex s sep = some i) : 1 < (goSplit s sep).length := by
  rw [goSplit_eq_of_some hsep h]
  have hne := goSplit_ne_nil (s := s.drop (i + sep.length)) hsep
  have : 0 < (goSplit (s.drop (i + sep.length)) sep).length :=
    List.length_pos.mpr hne
  simp
  omega

theorem goSplit_headD {s sep : Str} (hsep : sep ≠ []) {i : Nat}
    (h : goIndex s sep = some i) : (goSplit s sep).headD [] = s.take i := by
  rw [goSplit_eq_of_some hsep h]
  rfl

theorem goSplit_getD_one {s sep : Str} (hsep : sep ≠ []) {i : Nat}
    (h : goIndex s sep = some i) :
    (goSplit s sep).getD 1 [] = (goSplit (s.drop (i + sep.length)) sep).headD [] := by
  rw [goSplit_eq_of_some hsep h]
  have hne := goSplit_ne_nil (s := s.drop (i + sep.length)) hsep
  cases hg : goSplit (s.drop (i + sep.length)) sep with
  | nil => exact absurd hg hne
  | cons a t => simp

theorem goSplit_headD_of_none {s sep : Str} (hsep : sep ≠ [])
    (h : goIndex s sep = none) : (goSplit s sep).headD [] = s := by
  rw [goSplit_eq_of_none hsep h]
  rfl

/-! ### The filesystem model.

Paths are the raw strings the Go code builds by concatenation with the
path separator; the filesystem itself is a finite map keyed by the
normalized component list of a path (the POSIX view, in which repeated
separators collapse, so that "t//n" and "t/n" denote the same object).
Directory listing order is the entry order of the map, standing in for
whatever order the OS listing returns (the spec fixes no order).
Permission errors and other exotic stat failures are not modelled: a
stat either finds an entry or reports non-existence. -/

abbrev Path := List Str

inductive Entry
  | dir
  | file
  deriving DecidableEq, Repr

abbrev Fs := List (Path × Entry)

def pathSep : Char := '/'

/-- The path concatenation the Go code performs:
a + string(os.PathSeparator) + b. -/
def pjoin (a b : Str) : Str := a ++ pathSep :: b

/-- Component-list view of a raw path (empty components collapse, as the
OS does for repeated separators). -/
def normalize (p : Str) : Path :=
  (goSplit p [pathSep]).filter (fun comp => decide (comp ≠ []))

def lookupFs (fs : Fs) (p : Path) : Option Entry :=
  (fs.find? (fun e => decide (e.1 = p))).map (fun e => e.2)

def eraseKey (fs : Fs) (p : Path) : Fs :=
  fs.filter (fun e => decide (e.1 ≠ p))

def insertKey (fs : Fs) (p : Path) (k : Entry) : Fs :=
  (p, k) :: eraseKey fs p

/-- os.Stat, reduced to the question the handlers ask of it: does the
path exist, and as what. -/
def statRaw (fs : Fs) (p : Str) : Option Entry := lookupFs fs (normalize p)

/-- The error values the engine can surface, tagged by provenance
(the Go code carries them as strings built with errors.New). -/
inductive DErr
  | noExtensions
  | noPrefixDelimiters
  | noSuffixDelimiters
  | unrecognizedHandler
  | pathEmpty
  | pathNoExist (p : Str)
  | pathNotDir (p : Str)
  | readDirFail (p : Str)
  | removeFail (p : Str)
  | renameFail (src dst : Str)
  deriving DecidableEq, Repr

/-- The configuration errors of spec section 7. -/
def DErr.isConfigError : DErr → Bool
  | noExtensions => true
  | noPrefixDelimiters => true
  | noSuffixDelimiters => true
  | unrecognizedHandler => true
  | _ => false

/-- The path errors of spec section 7. -/
def DErr.isPathError : DErr → Bool
  | pathEmpty => true
  | pathNoExist _ => true
  | pathNotDir _ => true
  | _ => false

/-- Directory.CheckPath (main.go:155-168): empty paths are invalid, the
path must stat successfully, and it must be a directory. -/
def checkPath (fs : Fs) (p : Str) : Option DErr :=
  if p = [] then some DErr.pathEmpty
  else
    match statRaw fs p with
    | none => some (DErr.pathNoExist p)
    | some Entry.file => some (DErr.pathNotDir p)
    | some Entry.dir => none

/-- The immediate children of a directory: entries exactly one component
below it, as (name, isDir) pairs — the view ioutil.ReadDir gives the
handlers. -/
def childrenOf (fs : Fs) (d : Path) : List (Str × Bool) :=
  fs.filterMap (fun e =>
    if e.1.take d.length = d ∧ (e.1.drop d.length).length = 1 then
      some ((e.1.drop d.length).headD [], decide (e.2 = Entry.dir))
    else none)

/-- Directory.Contents (main.go:171-177) via ioutil.ReadDir: fails when
the path does not denote an existing directory. -/
def contentsOf (fs : Fs) (p : Str) : Except DErr (List (Str × Bool)) :=
  match statRaw fs p with
  | some Entry.dir => Except.ok (childrenOf fs (normalize p))
  | _ => Except.error (DErr.readDirFail p)

/-- os.Remove: fails when the path does not exist. -/
def osRemove (fs : Fs) (p : Str) : Except DErr Fs :=
  match statRaw fs p with
  | some _ => Except.ok (eraseKey fs (normalize p))
  | none => Except.error (DErr.removeFail p)

/-- os.Rename: fails when the source does not exist; otherwise the entry
moves to the destination path (the handlers only rename onto paths they
have just stat-checked as absent). -/
def osRename (fs : Fs) (src dst : Str) : Except DErr Fs :=
  match statRaw fs src with
  | some k => Except.ok (insertKey (eraseKey fs (normalize src)) (normalize dst) k)
  | none => Except.error (DErr.renameFail src dst)

/-- os.MkdirAll: creates the directory (parents are never missing at the
single call sites, which create one level below a validated target). -/
def osMkdirAll (fs : Fs) (p : Str) : Fs := insertKey fs (normalize p) Entry.dir

/-! ### Rules, messages, and the handlers of main.go. -/

/-- The Rule struct (main.go:140-152); source and target carry the
directory paths the two *Directory pointers hold. sizeMax/sizeMin/
dateMax/dateMin are carried but never read by any handler, as in the
source. -/
structure Rule where
  source : Str
  target : Str
  delete : Bool
  handler : Str
  extensions : List Str
  prefixDelimiters : List Str
  suffixDelimiters : List Str
  sizeMax : Int := 0
  sizeMin : Int := 0
  dateMax : Int := 0
  dateMin : Int := 0

/-- The log lines the handlers emit (main.go messages), keyed by which
of the four sentences is printed and the values interpolated into it. -/
inductive Msg
  | deleted (name : Str) (src : Str)
  | moved (name : Str) (src dst : Str)
  | movedRenamed (name : Str) (src dst renamed : Str)
  | notMovedCollisions (name : Str) (src dst : Str)
  deriving DecidableEq, Repr

/-- The candidate file name the collision loop forms (main.go:261):
strings.TrimRight(f.Name(), filepath.Ext(f.Name())) + strconv.Itoa(i) +
filepath.Ext(f.Name()). -/
def appendedName (name : Str) (i : Nat) : Str :=
  goTrimRight name (goFilepathExt name) ++ str (toString i) ++ goFilepathExt name

/-- The bounded numeric-suffix search (main.go:260-270): for i from the
given index, at most fuel iterations, return the first candidate the
occupancy test reports absent; none when the bound is exhausted. -/
def collisionFrom (occ : Str → Bool) (name : Str) : Nat → Nat → Option Str
  | 0, _ => none
  | fuel + 1, i =>
    if occ (appendedName name i) then collisionFrom occ name fuel (i + 1)
    else some (appendedName name i)

/-- The loop bound: for i := 0; i < 9999; i++ (main.go:260). -/
def collisionBound : Nat := 9999

/-- A handler run produces the updated filesystem, the log messages, and
optionally the error that aborted it. -/
abbrev HResult := Fs × List Msg × Option DErr

/-- The shared iteration shape of the Go for-loops that thread err:
run the step on each element in order, stop at the first error. -/
def foldSteps {α : Type} (step : Fs → α → HResult) : Fs → List α → HResult
  | fs, [] => (fs, [], none)
  | fs, x :: rest =>
    match step fs x with
    | (fs₁, ms, some e) => (fs₁, ms, some e)
    | (fs₁, ms, none) =>
      match foldSteps step fs₁ rest with
      | (fs₂, ms₂, e₂) => (fs₂, ms ++ ms₂, e₂)

/-- The per-entry body of ExtensionHandler's loop (main.go:236-283). -/
def extProcessFile (r : Rule) (fs : Fs) (f : Str × Bool) : HResult :=
  if f.2 then (fs, [], none)
  else if extMatches r.extensions f.1 then
    if r.delete then
      match osRemove fs (pjoin r.source f.1) with
      | Except.ok fs₁ => (fs₁, [Msg.deleted f.1 r.source], none)
      | Except.error e => (fs, [], some e)
    else
      match statRaw fs (pjoin r.target f.1) with
      | none =>
        match osRename fs (pjoin r.source f.1) (pjoin r.target f.1) with
        | Except.ok fs₁ => (fs₁, [Msg.moved f.1 r.source r.target], none)
        | Except.error e => (fs, [], some e)
      | some _ =>
        match collisionFrom (fun nm => (statRaw fs (pjoin r.target nm)).isSome)
            f.1 collisionBound 0 with
        | some app =>
          match osRename fs (pjoin r.source f.1) (pjoin r.target app) with
          | Except.ok fs₁ => (fs₁, [Msg.movedRenamed f.1 r.source r.target app], none)
          | Except.error e => (fs, [], some e)
        | none => (fs, [Msg.notMovedCollisions f.1 r.source r.target], none)
  else (fs, [], none)

/-- Rule.ExtensionHandler (main.go:209-285). -/
def Rule.ExtensionHandler (r : Rule) (fs : Fs) : HResult :=
  if r.extensions.length < 1 then (fs, [], some DErr.noExtensions)
  else
    match (if r.delete then none else checkPath fs r.target) with
    | some e => (fs, [], some e)
    | none =>
      match contentsOf fs r.source with
      | Except.error e => (fs, [], some e)
      | Except.ok files => foldSteps (extProcessFile r) fs files

/-- The body of PrefixHandler's inner loop over r.prefixDelimiters
(main.go:319-369). The trailing continue in the source continues this
inner loop, so after acting on a matching delimiter the iteration
proceeds to the next delimiter for the same file; foldSteps reproduces
exactly that. -/
def prefixDelimStep (r : Rule) (name base : Str) (fs : Fs) (d : Str) : HResult :=
  if 1 < (goSplit base d).length then
    if r.delete then
      match osRemove fs (pjoin r.source name) with
      | Except.ok fs₁ => (fs₁, [Msg.deleted name r.source], none)
      | Except.error e => (fs, [], some e)
    else
      let tok := (goSplit base d).headD []
      let fs₁ :=
        if (statRaw fs (pjoin r.target tok)).isNone then osMkdirAll fs (pjoin r.target tok)
        else fs
      match statRaw fs₁ (pjoin (pjoin r.target tok) name) with
      | none =>
        match osRename fs₁ (pjoin r.source name) (pjoin (pjoin r.target tok) name) with
        | Except.ok fs₂ => (fs₂, [Msg.moved name r.source (pjoin r.target tok)], none)
        | Except.error e => (fs₁, [], some e)
      | some _ =>
        match collisionFrom
            (fun nm => (statRaw fs₁ (pjoin (pjoin r.target tok) nm)).isSome)
            name collisionBound 0 with
        | some app =>
          match osRename fs₁ (pjoin r.source name) (pjoin (pjoin r.target tok) app) with
          | Except.ok fs₂ =>
            (fs₂, [Msg.movedRenamed name r.source (pjoin r.target tok) app], none)
          | Except.error e => (fs₁, [], some e)
        | none => (fs₁, [Msg.notMovedCollisions name r.source (pjoin r.target tok)], none)
  else (fs, [], none)

/-- The body of SuffixHandler's inner loop over r.suffixDelimiters
(main.go:407-457); identical to prefixDelimStep except the subdirectory
token is result[1]. -/
def suffixDelimStep (r : Rule) (name base : Str) (fs : Fs) (d : Str) : HResult :=
  if 1 < (goSplit base d).length then
    if r.delete then
      match osRemove fs (pjoin r.source name) with
      | Except.ok fs₁ => (fs₁, [Msg.deleted name r.source], none)
      | Except.error e => (fs, [], some e)
    else
      let tok := (goSplit base d).getD 1 []
      let fs₁ :=
        if (statRaw fs (pjoin r.target tok)).isNone then osMkdirAll fs (pjoin r.target tok)
        else fs
      match statRaw fs₁ (pjoin (pjoin r.target tok) name) with
      | none =>
        match osRename fs₁ (pjoin r.source name) (pjoin (pjoin r.target tok) name) with
        | Except.ok fs₂ => (fs₂, [Msg.moved name r.source (pjoin r.target tok)], none)
        | Except.error e => (fs₁, [], some e)
      | some _ =>
        match collisionFrom
            (fun nm => (statRaw fs₁ (pjoin (pjoin r.target tok) nm)).isSome)
            name collisionBound 0 with
        | some app =>
          match osRename fs₁ (pjoin r.source name) (pjoin (pjoin r.target tok) app) with
          | Except.ok fs₂ =>
            (fs₂, [Msg.movedRenamed name r.source (pjoin r.target tok) app], none)
          | Except.error e => (fs₁, [], some e)
        | none => (fs₁, [Msg.notMovedCollisions name r.source (pjoin r.target tok)], none)
  else (fs, [], none)

/-- The per-entry body of PrefixHandler's outer loop (main.go:314-371):
skip directories, compute the base name once, then iterate the
delimiters. -/
def prefixProcessFile (r : Rule) (fs : Fs) (f : Str × Bool) : HResult :=
  if f.2 then (fs, [], none)
  else foldSteps (prefixDelimStep r f.1 (baseNameOf f.1)) fs r.prefixDelimiters

/-- The per-entry body of SuffixHandler's outer loop (main.go:402-458). -/
def suffixProcessFile (r : Rule) (fs : Fs) (f : Str × Bool) : HResult :=
  if f.2 then (fs, [], none)
  else foldSteps (suffixDelimStep r f.1 (baseNameOf f.1)) fs r.suffixDelimiters

/-- Rule.PrefixHandler (main.go:292-373). -/
def Rule.PrefixHandler (r : Rule) (fs : Fs) : HResult :=
  if r.prefixDelimiters.length = 0 then (fs, [], some DErr.noPrefixDelimiters)
  else
    match (if r.delete then none else checkPath fs r.target) with
    | some e => (fs, [], some e)
    | none =>
      match contentsOf fs r.source with
      | Except.error e => (fs, [], some e)
      | Except.ok files => foldSteps (prefixProcessFile r) fs files

/-- Rule.SuffixHandler (main.go:380-461). -/
def Rule.SuffixHandler (r : Rule) (fs : Fs) : HResult :=
  if r.suffixDelimiters.length = 0 then (fs, [], some DErr.noSuffixDelimiters)
  else
    match (if r.delete then none else checkPath fs r.target) with
    | some e => (fs, [], some e)
    | none =>
      match contentsOf fs r.source with
      | Except.error e => (fs, [], some e)
      | Except.ok files => foldSteps (suffixProcessFile r) fs files

/-- Rule.Handler (main.go:192-204): string dispatch on the handler
name. -/
def Rule.Handler (r : Rule) (fs : Fs) : HResult :=
  if r.handler = str "ExtensionHandler" then r.ExtensionHandler fs
  else if r.handler = str "PrefixHandler" then r.PrefixHandler fs
  else if r.handler = str "SuffixHandler" then r.SuffixHandler fs
  else (fs, [], some DErr.unrecognizedHandler)

/-- Directory.Ruler (main.go:180-188): run the rules in order, stop at
the first error. -/
def Ruler (rules : List Rule) (fs : Fs) : HResult :=
  foldSteps (fun fs r => Rule.Handler r fs) fs rules

/-! ### Helper list lemmas. -/

theorem takeWhile_congr_on {p q : Char → Bool} :
    ∀ l : Str, (∀ c ∈ l, p c = q c) → l.takeWhile p = l.takeWhile q := by
  intro l
  induction l with
  | nil => intro _; rfl
  | cons a t ih =>
    intro h
    have ha : p a = q a := h a (by simp)
    rw [List.takeWhile_cons, List.takeWhile_cons, ha]
    cases hq : q a with
    | false => simp
    | true =>
      simp only [if_pos rfl]
      rw [ih (fun c hc => h c (by simp [hc]))]

theorem dropWhile_eq_self_of_false {p : Char → Bool} :
    ∀ l : Str, (∀ c ∈ l, p c = false) → l.dropWhile p = l := by
  intro l
  induction l with
  | nil => intro _; rfl
  | cons a t _ =>
    intro h
    rw [List.dropWhile_cons]
    simp [h a (by simp)]

theorem drop_takeWhile_length (p : Char → Bool) (l : Str) :
    l.drop (l.takeWhile p).length = l.dropWhile p := by
  induction l with
  | nil => rfl
  | cons a t ih =>
    cases hpa : p a with
    | true => simp [List.takeWhile_cons, List.dropWhile_cons, hpa, ih]
    | false => simp [List.takeWhile_cons, List.dropWhile_cons, hpa]

theorem head?_dropWhile_false {p : Char → Bool} :
    ∀ l : Str, ∀ {c : Char}, (l.dropWhile p).head? = some c → p c = false := by
  intro l
  induction l with
  | nil => intro c h; simp at h
  | cons a t ih =>
    intro c h
    rw [List.dropWhile_cons] at h
    by_cases hpa : p a = true
    · rw [if_pos hpa] at h
      exact ih h
    · rw [if_neg hpa] at h
      simp at h
      subst h
      simpa using hpa

/-! ### The extension computed by the code equals the spec's
extension(n): text after the last dot. -/

theorem fileExtensionOf_eq_spec {n : Str} (hn : ('/' : Char) ∉ n) :
    fileExtensionOf n = specExtension n := by
  by_cases hdot : ('.' : Char) ∈ n
  · have hcong : n.reverse.takeWhile (fun c => decide (c ≠ '/' ∧ c ≠ '.')) =
        n.reverse.takeWhile (fun c => decide (c ≠ '.')) := by
      refine takeWhile_congr_on _ (fun c hc => ?_)
      have hcn : c ∈ n := List.mem_reverse.mp hc
      have hcs : c ≠ '/' := fun hcon => hn (hcon ▸ hcn)
      simp [hcs]
    have hdwne : n.reverse.dropWhile (fun c => decide (c ≠ '.')) ≠ [] := by
      intro hnil
      have := List.dropWhile_eq_nil_iff.mp hnil '.' (by simpa using hdot)
      simp at this
    have hhead : (n.reverse.dropWhile (fun c => decide (c ≠ '.'))).head? = some '.' := by
      cases hdw : n.reverse.dropWhile (fun c => decide (c ≠ '.')) with
      | nil => exact absurd hdw hdwne
      | cons c rest =>
        have hc : (fun c => decide (c ≠ '.')) c = false :=
          head?_dropWhile_false n.reverse (by rw [hdw]; rfl)
        have : c = '.' := by simpa using hc
        simp [this]
    have hext : goFilepathExt n =
        '.' :: (n.reverse.takeWhile (fun c => decide (c ≠ '.'))).reverse := by
      rw [goFilepathExt]
      simp only [hcong, drop_takeWhile_length]
      rw [hhead]
      simp
    rw [fileExtensionOf, hext, specExtension, if_pos hdot]
    rw [goTrimLeft, List.dropWhile_cons]
    simp only [List.mem_singleton, decide_True, if_true]
    refine dropWhile_eq_self_of_false _ (fun c hc => ?_)
    have hc₂ : c ∈ n.reverse.takeWhile (fun c => decide (c ≠ '.')) :=
      List.mem_reverse.mp hc
    have := List.mem_takeWhile_imp hc₂
    simpa using this
  · have hall : n.reverse.takeWhile (fun c => decide (c ≠ '/' ∧ c ≠ '.')) = n.reverse := by
      refine List.takeWhile_eq_self_iff.mpr (fun c hc => ?_)
      have hcn : c ∈ n := List.mem_reverse.mp hc
      have hcs : c ≠ '/' := fun hcon => hn (hcon ▸ hcn)
      have hcd : c ≠ '.' := fun hcon => hdot (hcon ▸ hcn)
      simp [hcs, hcd]
    rw [fileExtensionOf, goFilepathExt]
    simp only [hall]
    rw [List.drop_length]
    simp only [List.head?_nil]
    rw [specExtension, if_neg hdot]
    rfl

/-! ### The bounded collision search finds the first free candidate. -/

theorem collisionFrom_finds (occ : Str → Bool) (name : Str) :
    ∀ (fuel i k : Nat), i ≤ k → k < i + fuel →
      occ (appendedName name k) = false →
      (∀ j, i ≤ j → j < k → occ (appendedName name j) = true) →
      collisionFrom occ name fuel i = some (appendedName name k) := by
  intro fuel
  induction fuel with
  | zero =>
    intro i k hik hlt _ _
    omega
  | succ m ih =>
    intro i k hik hlt hfree hocc
    rw [collisionFrom]
    by_cases hik₂ : i = k
    · subst hik₂
      rw [hfree]
      simp
    · have hi : occ (appendedName name i) = true := hocc i (le_refl _) (by omega)
      rw [hi]
      simp only [if_true]
      exact ih (i + 1) k (by omega) (by omega) hfree
        (fun j hj₁ hj₂ => hocc j (by omega) hj₂)

theorem collisionFrom_exhausts (occ : Str → Bool) (name : Str) :
    ∀ (fuel i : Nat), (∀ j, i ≤ j → j < i + fuel → occ (appendedName name j) = true) →
      collisionFrom occ name fuel i = none := by
  intro fuel
  induction fuel with
  | zero => intro i _; rfl
  | succ m ih =>
    intro i hocc
    rw [collisionFrom]
    rw [hocc i (le_refl _) (by omega)]
    simp only [if_true]
    exact ih (i + 1) (fun j hj₁ hj₂ => hocc j (by omega) (by omega))

/-! ### Concrete configurations used by the per-claim counterexamples and
evaluations. -/

/-- A prefix delete-rule with two delimiters that both split the same
base name. -/
def pruleTwoDelims : Rule :=
  { source := str "src"
    target := str "tgt"
    delete := true
    handler := str "PrefixHandler"
    extensions := []
    prefixDelimiters := [str "-", str "_"]
    suffixDelimiters := [] }

/-- A source directory holding the single file a-b_c.txt, whose base
name a-b_c is split both by "-" and by "_". -/
def fsTwoDelims : Fs :=
  [([str "src"], Entry.dir), ([str "src", str "a-b_c.txt"], Entry.file)]

/-- A suffix move-rule with the single delimiter "--". -/
def sruleDouble : Rule :=
  { source := str "src"
    target := str "tgt"
    delete := false
    handler := str "SuffixHandler"
    extensions := []
    prefixDelimiters := []
    suffixDelimiters := [str "--"] }

/-- A source holding a--b--c.txt, whose base name contains the delimiter
"--" twice, and an empty target directory. -/
def fsDouble : Fs :=
  [([str "src"], Entry.dir), ([str "src", str "a--b--c.txt"], Entry.file),
   ([str "tgt"], Entry.dir)]

/-- An extension move-rule on txt files. -/
def eruleTxt : Rule :=
  { source := str "src"
    target := str "tgt"
    delete := false
    handler := str "ExtensionHandler"
    extensions := [str "txt"]
    prefixDelimiters := []
    suffixDelimiters := [] }

/-- Source holds att.txt and the target already holds a file of the same
name, so the collision loop runs; the character before the extension of
att.txt is a t, which belongs to the extension's character set. -/
def fsAtt : Fs :=
  [([str "src"], Entry.dir), ([str "src", str "att.txt"], Entry.file),
   ([str "tgt"], Entry.dir), ([str "tgt", str "att.txt"], Entry.file)]

/-- The occupancy of the spec's collision example: destination holds
exactly f, f0 and f1. -/
def occF : Str → Bool := fun nm => decide (nm ∈ [str "f", str "f0", str "f1"])

/-! ### Claim C1. -/

/-- C1: the claim states that a prefix/suffix rule applies only the first
delimiter (in criteria order) that splits a file's base name and acts on
the file exactly once. The code's inner delimiter loop ends in a plain
continue (main.go:367), which continues the delimiter loop rather than
moving to the next file, so a second matching delimiter re-processes the
already-deleted file: on source {a-b_c.txt} with delimiters ["-", "_"],
the file is deleted by the first delimiter and the second delimiter's
os.Remove then fails, aborting the whole rule with an error. This
evaluation pins that behavior. -/
theorem C1_second_delimiter_applied :
    Rule.PrefixHandler pruleTwoDelims fsTwoDelims =
      ([([str "src"], Entry.dir)],
       [Msg.deleted (str "a-b_c.txt") (str "src")],
       some (DErr.removeFail (str "src/a-b_c.txt"))) := by decide

/-! ### Claim C2. -/

/-- C2 counterexample: the claim states that suffix-match extracts the
substring strictly after the first occurrence of the delimiter even when
the delimiter occurs more than once in the base name. For base name
a--b--c and delimiter "--" the code takes result[1] of strings.Split,
which is "b", not the substring "b--c" strictly after the first
occurrence; accordingly the file a--b--c.txt lands in subdirectory b,
not in b--c. -/
theorem C2_counterexample :
    (goSplit (str "a--b--c") (str "--")).getD 1 [] = str "b" ∧
    specAfterFirst (str "a--b--c") (str "--") = str "b--c" ∧
    str "b" ≠ str "b--c" ∧
    statRaw (Rule.SuffixHandler sruleDouble fsDouble).1 (str "tgt/b/a--b--c.txt") =
      some Entry.file ∧
    statRaw (Rule.SuffixHandler sruleDouble fsDouble).1 (str "tgt/b--c/a--b--c.txt") =
      none := by decide

/-- C2 (amended): for every nonempty delimiter d that splits a base name
s (the code's match condition, more than one split segment), the prefix
token result[0] is the substring of s strictly before the first
occurrence of d — witnessed by the decomposition index i with d matching
at i and at no earlier position — while the suffix token result[1] is
the substring strictly after the first occurrence of d truncated before
the next occurrence of d inside it (so it equals the full remainder
exactly when d occurs once). -/
theorem C2_amended (s d : Str) (hd : d ≠ []) (hsplit : 1 < (goSplit s d).length) :
    ∃ i, goIndex s d = some i ∧
      d <+: s.drop i ∧
      (∀ j < i, ¬ d <+: s.drop j) ∧
      (goSplit s d).headD [] = specBeforeFirst s d ∧
      specBeforeFirst s d = s.take i ∧
      (goSplit s d).getD 1 [] = specBeforeFirst (specAfterFirst s d) d ∧
      specAfterFirst s d = s.drop (i + d.length) := by
  obtain ⟨i, hidx⟩ : ∃ i, goIndex s d = some i := by
    cases hg : goIndex s d with
    | none =>
      have := goSplit_length_one hd hg
      omega
    | some i => exact ⟨i, rfl⟩
  refine ⟨i, hidx, goIndex_some_found hidx, goIndex_some_min hidx, ?_, ?_, ?_, ?_⟩
  · rw [goSplit_headD hd hidx, specBeforeFirst, hidx]
  · rw [specBeforeFirst, hidx]
  · rw [goSplit_getD_one hd hidx, specAfterFirst, hidx]
    cases hg₂ : goIndex (s.drop (i + d.length)) d with
    | none => rw [goSplit_headD_of_none hd hg₂, specBeforeFirst, hg₂]
    | some j => rw [goSplit_headD hd hg₂, specBeforeFirst, hg₂]
  · rw [specAfterFirst, hidx]

/-- Witness for C2 (amended) at s = a--b--c, d = "--": the split exists
and the tokens are a (before the first occurrence) and b (the remainder
truncated before the second occurrence). -/
theorem C2_amended_witness :
    ((str "--" : Str) ≠ [] ∧ 1 < (goSplit (str "a--b--c") (str "--")).length) ∧
    (∃ i, goIndex (str "a--b--c") (str "--") = some i ∧
      (str "--" : Str) <+: (str "a--b--c").drop i ∧
      (∀ j < i, ¬ (str "--" : Str) <+: (str "a--b--c").drop j) ∧
      (goSplit (str "a--b--c") (str "--")).headD [] =
        specBeforeFirst (str "a--b--c") (str "--") ∧
      specBeforeFirst (str "a--b--c") (str "--") = (str "a--b--c").take i ∧
      (goSplit (str "a--b--c") (str "--")).getD 1 [] =
        specBeforeFirst (specAfterFirst (str "a--b--c") (str "--")) (str "--") ∧
      specAfterFirst (str "a--b--c") (str "--") =
        (str "a--b--c").drop (i + (str "--").length)) :=
  ⟨⟨by decide, by decide⟩, C2_amended (str "a--b--c") (str "--") (by decide) (by decide)⟩

/-! ### Claim C3. -/

/-- C3 counterexample: the claim states that collision resolution derives
base as the name without its extension, so resolving att.txt against an
occupied att.txt would try att0.txt first. The code computes base with
strings.TrimRight(name, ext), a cutset operation that also strips the
trailing t-characters of att, so the first candidate is a0.txt and the
file is moved there; att0.txt is never created. -/
theorem C3_counterexample :
    appendedName (str "att.txt") 0 = str "a0.txt" ∧
    appendedName (str "att.txt") 0 ≠ str "att0.txt" ∧
    (Rule.ExtensionHandler eruleTxt fsAtt).2.2 = none ∧
    statRaw (Rule.ExtensionHandler eruleTxt fsAtt).1 (str "tgt/a0.txt") =
      some Entry.file ∧
    statRaw (Rule.ExtensionHandler eruleTxt fsAtt).1 (str "tgt/att0.txt") = none := by
  decide

/-- C3 (amended): collision resolution derives ext = filepath.Ext(name)
and base = strings.TrimRight(name, ext) — the name with trailing
characters drawn from the extension's character set removed, which
equals the name without its extension whenever the character preceding
the extension is not in that set — and then tries base + i + ext for
i = 0, 1, 2, ... against the destination snapshot, choosing the first
candidate that is not occupied (deterministically; with occupants
{f, f0, f1} resolving f yields f2, see the witness). -/
theorem C3_amended (occ : Str → Bool) (name : Str) (k : Nat)
    (hk : k < collisionBound)
    (hfree : occ (appendedName name k) = false)
    (hocc : ∀ j < k, occ (appendedName name j) = true) :
    collisionFrom occ name collisionBound 0 = some (appendedName name k) ∧
    appendedName name k =
      goTrimRight name (goFilepathExt name) ++ str (toString k) ++ goFilepathExt name := by
  refine ⟨?_, rfl⟩
  exact collisionFrom_finds occ name collisionBound 0 k (Nat.zero_le _) (by omega)
    hfree (fun j _ hj => hocc j hj)

/-- Witness for C3 (amended), at the spec's own example: occupants
{f, f0, f1}, resolving f yields f2. -/
theorem C3_amended_witness :
    (2 < collisionBound ∧ occF (appendedName (str "f") 2) = false ∧
      (∀ j < 2, occF (appendedName (str "f") j) = true)) ∧
    collisionFrom occF (str "f") collisionBound 0 = some (appendedName (str "f") 2) ∧
    appendedName (str "f") 2 = str "f2" :=
  ⟨⟨by decide, by decide, by decide⟩,
    (C3_amended occF (str "f") 2 (by decide) (by decide) (by decide)).1,
    by decide⟩

/-! ### Claim C5. -/

/-- C5: for every file name n (a directory entry, so free of path
separators) and extension set E, extension-match succeeds iff
extension(n) ∈ E, where extension(n) is the text after the last dot in n
(empty when n has no dot), compared case-sensitively and without a
leading dot; and the empty-string criterion matches exactly the names
whose extension is empty. -/
theorem C5_extension_match_iff (E : List Str) (n : Str) (hn : ('/' : Char) ∉ n) :
    (extMatches E n = true ↔ specExtension n ∈ E) ∧
    (extMatches [[]] n = true ↔ specExtension n = []) := by
  have hmain : extMatches E n = true ↔ specExtension n ∈ E := by
    rw [extMatches, fileExtensionOf_eq_spec hn]
    exact decide_eq_true_iff
  have hempty : extMatches [[]] n = true ↔ specExtension n = [] := by
    rw [extMatches, fileExtensionOf_eq_spec hn]
    simp
  exact ⟨hmain, hempty⟩

/-- Witness for C5 at n = photo.png, E = {png}. -/
theorem C5_extension_match_iff_witness :
    (('/' : Char) ∉ str "photo.png") ∧
    ((extMatches [str "png"] (str "photo.png") = true ↔
        specExtension (str "photo.png") ∈ [str "png"]) ∧
      (extMatches [[]] (str "photo.png") = true ↔
        specExtension (str "photo.png") = [])) :=
  ⟨by decide, C5_extension_match_iff [str "png"] (str "photo.png") (by decide)⟩

/-! ### Append laws for the error-threading fold. -/

theorem foldSteps_append_ok {α : Type} (step : Fs → α → HResult) (l₁ : List α) :
    ∀ fs fs₁ ms, foldSteps step fs l₁ = (fs₁, ms, none) →
      ∀ l₂, foldSteps step fs (l₁ ++ l₂) =
        ((foldSteps step fs₁ l₂).1, ms ++ (foldSteps step fs₁ l₂).2.1,
          (foldSteps step fs₁ l₂).2.2) := by
  induction l₁ with
  | nil =>
    intro fs fs₁ ms h l₂
    rw [foldSteps] at h
    obtain ⟨rfl, rfl, -⟩ : fs = fs₁ ∧ ([] : List Msg) = ms ∧ True := by
      refine ⟨congrArg Prod.fst h, ?_, trivial⟩
      have := congrArg (fun t => t.2.1) h
      exact this
    simp
  | cons x rest ih =>
    intro fs fs₁ ms h l₂
    rcases hstep : step fs x with ⟨fsx, msx, ex⟩
    cases ex with
    | some e =>
      simp only [foldSteps, hstep] at h
      exact absurd (congrArg (fun t => t.2.2) h) (by simp)
    | none =>
      simp only [foldSteps, hstep] at h
      rcases hrest : foldSteps step fsx rest with ⟨fsr, msr, er⟩
      simp only [hrest] at h
      have hfs : fsr = fs₁ := congrArg Prod.fst h
      have hms : msx ++ msr = ms := congrArg (fun t => t.2.1) h
      have her : er = none := congrArg (fun t => t.2.2) h
      subst hfs
      subst her
      show foldSteps step fs (x :: (rest ++ l₂)) = _
      simp only [foldSteps, hstep]
      rw [ih fsx fsr msr hrest l₂, ← hms, List.append_assoc]

theorem foldSteps_cons_err {α : Type} (step : Fs → α → HResult) (x : α)
    (rest : List α) (fs fs₁ : Fs) (ms : List Msg) (e : DErr)
    (h : step fs x = (fs₁, ms, some e)) :
    foldSteps step fs (x :: rest) = (fs₁, ms, some e) := by
  rw [foldSteps, h]

/-! ### Claim C7. -/

/-- C7: the rule sequencer (Directory.Ruler) runs rules in order and, as
soon as one returns an error, returns that error without running any
later rule: if the rules before r all succeed taking the filesystem to
fs₁, and r fails on fs₁ leaving fs₂, then the whole sequence leaves
exactly fs₂ and reports r's error — the rules after r contribute
nothing observable. -/
theorem C7_ruler_short_circuit (pre : List Rule) (r : Rule) (post : List Rule)
    (fs fs₁ fs₂ : Fs) (ms ms₂ : List Msg) (e : DErr)
    (hpre : Ruler pre fs = (fs₁, ms, none))
    (hfail : Rule.Handler r fs₁ = (fs₂, ms₂, some e)) :
    Ruler (pre ++ r :: post) fs = (fs₂, ms ++ ms₂, some e) := by
  rw [Ruler] at hpre ⊢
  rw [foldSteps_append_ok _ pre fs fs₁ ms hpre (r :: post)]
  rw [foldSteps_cons_err _ r post fs₁ fs₂ ms₂ e hfail]

/-- A rule list and state for the witnesses: an extension rule with an
empty criteria list (which fails), followed by a rule that would move
x.txt. -/
def fsSimple : Fs :=
  [([str "src"], Entry.dir), ([str "src", str "x.txt"], Entry.file),
   ([str "tgt"], Entry.dir)]

def eruleEmpty : Rule := { eruleTxt with extensions := [] }

/-- Witness for C7: with R1 = the empty-criteria rule (fails) and R2 =
the txt rule (would move x.txt into tgt), the sequence stops at R1 and
the filesystem is untouched: x.txt never moves. -/
theorem C7_ruler_short_circuit_witness :
    (Ruler [] fsSimple = (fsSimple, [], none) ∧
      Rule.Handler eruleEmpty fsSimple = (fsSimple, [], some DErr.noExtensions)) ∧
    Ruler ([] ++ eruleEmpty :: [eruleTxt]) fsSimple =
      (fsSimple, [] ++ [], some DErr.noExtensions) :=
  ⟨⟨by decide, by decide⟩,
    C7_ruler_short_circuit [] eruleEmpty [eruleTxt] fsSimple fsSimple fsSimple [] []
      DErr.noExtensions (by decide) (by decide)⟩

/-! ### Claim C8. -/

/-- C8: a rule whose criteria list is empty for its kind fails with the
corresponding configuration error, with the filesystem untouched and no
message logged (so never a successful no-op): each handler checks its
criteria list before touching any file (main.go:210, 294, 382). -/
theorem C8_empty_criteria (r : Rule) (fs : Fs) :
    (r.handler = str "ExtensionHandler" → r.extensions = [] →
      Rule.Handler r fs = (fs, [], some DErr.noExtensions) ∧
        DErr.noExtensions.isConfigError = true) ∧
    (r.handler = str "PrefixHandler" → r.prefixDelimiters = [] →
      Rule.Handler r fs = (fs, [], some DErr.noPrefixDelimiters) ∧
        DErr.noPrefixDelimiters.isConfigError = true) ∧
    (r.handler = str "SuffixHandler" → r.suffixDelimiters = [] →
      Rule.Handler r fs = (fs, [], some DErr.noSuffixDelimiters) ∧
        DErr.noSuffixDelimiters.isConfigError = true) := by
  refine ⟨fun hh hc => ⟨?_, rfl⟩, fun hh hc => ⟨?_, rfl⟩, fun hh hc => ⟨?_, rfl⟩⟩
  · rw [Rule.Handler, hh, if_pos rfl, Rule.ExtensionHandler, hc]
    simp
  · rw [Rule.Handler, hh, if_neg (by decide), if_pos rfl, Rule.PrefixHandler, hc]
    simp
  · rw [Rule.Handler, hh, if_neg (by decide), if_neg (by decide), if_pos rfl,
      Rule.SuffixHandler, hc]
    simp

def pruleEmpty : Rule := { pruleTwoDelims with delete := false, prefixDelimiters := [] }

def sruleEmpty : Rule := { sruleDouble with suffixDelimiters := [] }

/-- Witness for C8 at one concrete rule per handler kind. -/
theorem C8_empty_criteria_witness :
    (eruleEmpty.handler = str "ExtensionHandler" ∧ eruleEmpty.extensions = [] ∧
      Rule.Handler eruleEmpty fsSimple = (fsSimple, [], some DErr.noExtensions)) ∧
    (pruleEmpty.handler = str "PrefixHandler" ∧ pruleEmpty.prefixDelimiters = [] ∧
      Rule.Handler pruleEmpty fsSimple = (fsSimple, [], some DErr.noPrefixDelimiters)) ∧
    (sruleEmpty.handler = str "SuffixHandler" ∧ sruleEmpty.suffixDelimiters = [] ∧
      Rule.Handler sruleEmpty fsSimple = (fsSimple, [], some DErr.noSuffixDelimiters)) :=
  ⟨⟨by decide, rfl, ((C8_empty_criteria eruleEmpty fsSimple).1 (by decide) rfl).1⟩,
    ⟨by decide, rfl, ((C8_empty_criteria pruleEmpty fsSimple).2.1 (by decide) rfl).1⟩,
    ⟨by decide, rfl, ((C8_empty_criteria sruleEmpty fsSimple).2.2 (by decide) rfl).1⟩⟩

theorem foldSteps_cons_ok {α : Type} (step : Fs → α → HResult) (x : α)
    (rest : List α) (fs fs₁ : Fs) (ms : List Msg)
    (h : step fs x = (fs₁, ms, none)) :
    foldSteps step fs (x :: rest) =
      ((foldSteps step fs₁ rest).1, ms ++ (foldSteps step fs₁ rest).2.1,
        (foldSteps step fs₁ rest).2.2) := by
  simp only [foldSteps, h]

/-! ### Claim C4. -/

/-- C4: when every candidate name of the bounded collision search is
occupied in the target (all 9999 attempts fail), the handler emits the
per-file warning message, leaves the file at its source (the filesystem
is unchanged), reports no error for that file, and goes on to process
the remaining entries: the step for that file succeeds with the warning
as its only effect, and the fold over the remaining files proceeds from
the unchanged state. -/
theorem C4_collision_exhausted (r : Rule) (fs : Fs) (name : Str)
    (hmatch : extMatches r.extensions name = true)
    (hdel : r.delete = false)
    (hocc0 : (statRaw fs (pjoin r.target name)).isSome = true)
    (hocc : ∀ i < collisionBound,
      (statRaw fs (pjoin r.target (appendedName name i))).isSome = true) :
    extProcessFile r fs (name, false) =
      (fs, [Msg.notMovedCollisions name r.source r.target], none) ∧
    ∀ rest, foldSteps (extProcessFile r) fs ((name, false) :: rest) =
      ((foldSteps (extProcessFile r) fs rest).1,
        Msg.notMovedCollisions name r.source r.target ::
          (foldSteps (extProcessFile r) fs rest).2.1,
        (foldSteps (extProcessFile r) fs rest).2.2) := by
  have hexh : collisionFrom (fun nm => (statRaw fs (pjoin r.target nm)).isSome)
      name collisionBound 0 = none :=
    collisionFrom_exhausts _ name collisionBound 0
      (fun j _ hj => hocc j (by omega))
  obtain ⟨k, hk⟩ : ∃ k, statRaw fs (pjoin r.target name) = some k := by
    cases hsr : statRaw fs (pjoin r.target name) with
    | none => rw [hsr] at hocc0; simp at hocc0
    | some k => exact ⟨k, rfl⟩
  have hstep : extProcessFile r fs (name, false) =
      (fs, [Msg.notMovedCollisions name r.source r.target], none) := by
    simp only [extProcessFile, hmatch, hdel, hk, hexh]
    simp
  refine ⟨hstep, fun rest => ?_⟩
  rw [foldSteps_cons_ok (extProcessFile r) (name, false) rest fs fs
    [Msg.notMovedCollisions name r.source r.target] hstep]
  simp

/-- A crowded target for the C4 witness: tgt holds x.txt and every one of
the 9999 collision candidates for it, so the search must exhaust. -/
def fsCrowd : Fs :=
  [([str "src"], Entry.dir), ([str "src", str "x.txt"], Entry.file),
   ([str "tgt"], Entry.dir),
   (normalize (pjoin (str "tgt") (str "x.txt")), Entry.file)] ++
  (List.range collisionBound).map
    (fun i => (normalize (pjoin (str "tgt") (appendedName (str "x.txt") i)), Entry.file))

theorem lookupFs_isSome_of_mem (fs : Fs) (p : Path) (h : p ∈ fs.map Prod.fst) :
    (lookupFs fs p).isSome = true := by
  induction fs with
  | nil => simp at h
  | cons e rest ih =>
    by_cases he : e.1 = p
    · rw [lookupFs]
      rw [List.find?_cons_of_pos _ (by simpa using he)]
      rfl
    · rw [lookupFs, List.find?_cons_of_neg _ (by simpa using he)]
      have hrest : p ∈ rest.map Prod.fst := by
        rcases List.mem_map.mp h with ⟨e₂, he₂, rfl⟩
        cases List.mem_cons.mp he₂ with
        | inl hl => exact absurd (hl ▸ rfl) he
        | inr hr => exact List.mem_map.mpr ⟨e₂, hr, rfl⟩
      exact ih hrest

/-- Witness for C4: running the txt rule's per-file step on x.txt against
the crowded target leaves the filesystem untouched, logs the warning,
and continues without error. -/
theorem C4_collision_exhausted_witness :
    (extMatches eruleTxt.extensions (str "x.txt") = true ∧
      eruleTxt.delete = false ∧
      (statRaw fsCrowd (pjoin eruleTxt.target (str "x.txt"))).isSome = true ∧
      (∀ i < collisionBound,
        (statRaw fsCrowd (pjoin eruleTxt.target (appendedName (str "x.txt") i))).isSome =
          true)) ∧
    extProcessFile eruleTxt fsCrowd (str "x.txt", false) =
      (fsCrowd, [Msg.notMovedCollisions (str "x.txt") eruleTxt.source eruleTxt.target],
        none) := by
  have hocc : ∀ i < collisionBound,
      (statRaw fsCrowd (pjoin eruleTxt.target (appendedName (str "x.txt") i))).isSome =
        true := by
    intro i hi
    refine lookupFs_isSome_of_mem fsCrowd _ ?_
    have : normalize (pjoin (str "tgt") (appendedName (str "x.txt") i)) ∈
        ((List.range collisionBound).map
          (fun i => (normalize (pjoin (str "tgt") (appendedName (str "x.txt") i)),
            Entry.file))).map Prod.fst := by
      rw [List.map_map]
      exact List.mem_map.mpr ⟨i, List.mem_range.mpr hi, rfl⟩
    rw [fsCrowd, List.map_append]
    exact List.mem_append_right _ this
  refine ⟨⟨by decide, rfl, by decide, hocc⟩, ?_⟩
  exact (C4_collision_exhausted eruleTxt fsCrowd (str "x.txt") (by decide) rfl
    (by decide) hocc).1

/-! ### Single-character separators: goIndex and goSplit on paths. -/

theorem singleton_prefix_drop {c : Char} :
    ∀ (j : Nat) (l : Str), ([c] <+: l.drop j) ↔ l.get? j = some c := by
  intro j
  induction j with
  | zero =>
    intro l
    cases l with
    | nil => simp
    | cons a t => simp [List.cons_prefix_cons, eq_comm]
  | succ m ih =>
    intro l
    cases l with
    | nil => simp
    | cons a t => simpa using ih t

theorem goIndex_singleton_none {c : Char} {s : Str} (h : c ∉ s) :
    goIndex s [c] = none := by
  cases hg : goIndex s [c] with
  | none => rfl
  | some i =>
    have hpre := goIndex_some_found hg
    rw [singleton_prefix_drop] at hpre
    exact absurd (List.get?_mem hpre) h

theorem goSplit_no_occurrence {c : Char} {s : Str} (h : c ∉ s) :
    goSplit s [c] = [s] :=
  goSplit_eq_of_none (by simp) (goIndex_singleton_none h)

theorem goIndex_singleton_lt {c : Char} {s : Str} {i : Nat}
    (h : goIndex s [c] = some i) : i < s.length := by
  have hpre := goIndex_some_found h
  rw [singleton_prefix_drop] at hpre
  by_contra hni
  rw [List.get?_eq_none.mpr (by omega)] at hpre
  exact absurd hpre (by simp)

theorem goIndex_sep_append_of_not_mem {c : Char} {a : Str} (b : Str) (h : c ∉ a) :
    goIndex (a ++ c :: b) [c] = some a.length := by
  apply goIndex_eq_some_of
  · rw [List.drop_left]
    exact ⟨b, rfl⟩
  · intro j hj
    rw [singleton_prefix_drop, List.get?_append hj]
    intro hc
    exact h (List.get?_mem hc)

theorem goIndex_sep_append_of_some {c : Char} {a : Str} {i : Nat} (b : Str)
    (h : goIndex a [c] = some i) : goIndex (a ++ c :: b) [c] = some i := by
  have hpre := goIndex_some_found h
  rw [singleton_prefix_drop] at hpre
  have hi : i < a.length := goIndex_singleton_lt h
  apply goIndex_eq_some_of
  · rw [singleton_prefix_drop, List.get?_append hi]
    exact hpre
  · intro j hj
    rw [singleton_prefix_drop, List.get?_append (lt_trans hj hi)]
    have hmin := goIndex_some_min h j hj
    rw [singleton_prefix_drop] at hmin
    exact hmin

theorem take_append_cons (a : Str) (c : Char) (b : Str) :
    (a ++ c :: b).take a.length = a := by
  rw [List.take_append_of_le_length (le_refl _), List.take_length]

theorem drop_append_cons (a : Str) (c : Char) (b : Str) :
    (a ++ c :: b).drop (a.length + 1) = b := by
  have h : a ++ c :: b = (a ++ [c]) ++ b := by simp
  have hl : a.length + 1 = (a ++ [c]).length := by simp
  rw [h, hl, List.drop_left]

theorem goSplit_sep_append (c : Char) :
    ∀ (n : Nat) (a b : Str), a.length ≤ n →
      goSplit (a ++ c :: b) [c] = goSplit a [c] ++ goSplit b [c] := by
  intro n
  induction n with
  | zero =>
    intro a b ha
    have hae : a = [] := by
      cases a with
      | nil => rfl
      | cons x t => simp at ha
    subst hae
    have h0 : goIndex (c :: b) [c] = some 0 :=
      goIndex_eq_some_of (by exact ⟨b, rfl⟩) (by omega)
    rw [List.nil_append, goSplit_eq_of_some (by simp) h0]
    have hnil : goSplit ([] : Str) [c] = [[]] :=
      goSplit_eq_of_none (by simp) (goIndex_singleton_none (by simp))
    rw [hnil]
    simp
  | succ m ih =>
    intro a b ha
    cases hga : goIndex a [c] with
    | none =>
      have hcm : c ∉ a := by
        intro hmem
        rcases List.mem_iff_get?.mp hmem with ⟨j, hj⟩
        exact goIndex_none hga j ((singleton_prefix_drop j a).mpr hj)
      rw [goSplit_eq_of_some (by simp) (goIndex_sep_append_of_not_mem b hcm)]
      rw [goSplit_eq_of_none (by simp) hga]
      simp only [List.length_singleton, take_append_cons, drop_append_cons]
      rfl
    | some i =>
      have hi : i < a.length := goIndex_singleton_lt hga
      rw [goSplit_eq_of_some (by simp) (goIndex_sep_append_of_some b hga)]
      rw [goSplit_eq_of_some (by simp) hga]
      simp only [List.length_singleton]
      rw [List.cons_append]
      congr 1
      · exact List.take_append_of_le_length (le_of_lt hi)
      · have hdrop : (a ++ c :: b).drop (i + 1) = a.drop (i + 1) ++ c :: b :=
          List.drop_append_of_le_length (by omega)
        rw [hdrop]
        exact ih (a.drop (i + 1)) b (by simp; omega)

/-! ### Normalization of joined paths. -/

theorem normalize_pjoin {p n : Str} (hn : ('/' : Char) ∉ n) :
    normalize (pjoin p n) = normalize p ++ (if n = [] then [] else [n]) := by
  show normalize (p ++ pathSep :: n) = _
  rw [normalize, normalize]
  have hsep : (pathSep : Char) = '/' := rfl
  rw [hsep]
  rw [goSplit_sep_append '/' p.length p n (le_refl _), List.filter_append]
  congr 1
  rw [goSplit_no_occurrence hn]
  by_cases hn0 : n = []
  · subst hn0
    simp
  · simp [hn0]

theorem statRaw_pjoin {fs : Fs} {p n : Str} (hn : ('/' : Char) ∉ n) (hne : n ≠ []) :
    statRaw fs (pjoin p n) = lookupFs fs (normalize p ++ [n]) := by
  rw [statRaw, normalize_pjoin hn, if_neg hne]

theorem normalize_pjoin_empty (t : Str) : normalize (pjoin t []) = normalize t := by
  rw [normalize_pjoin (by simp)]
  simp

/-! ### Lookup, erase, insert. -/

theorem lookupFs_eraseKey_self (fs : Fs) (p : Path) :
    lookupFs (eraseKey fs p) p = none := by
  induction fs with
  | nil => rfl
  | cons e rest ih =>
    by_cases he : e.1 = p
    · have h1 : eraseKey (e :: rest) p = eraseKey rest p := by
        simp [eraseKey, List.filter_cons, he]
      rw [h1]
      exact ih
    · have h1 : eraseKey (e :: rest) p = e :: eraseKey rest p := by
        simp [eraseKey, List.filter_cons, he]
      rw [h1, lookupFs, List.find?_cons_of_neg _ (by simpa using he)]
      exact ih

theorem lookupFs_eraseKey_ne (fs : Fs) {p q : Path} (h : p ≠ q) :
    lookupFs (eraseKey fs q) p = lookupFs fs p := by
  induction fs with
  | nil => rfl
  | cons e rest ih =>
    by_cases he : e.1 = q
    · have h1 : eraseKey (e :: rest) q = eraseKey rest q := by
        simp [eraseKey, List.filter_cons, he]
      have hep : ¬ e.1 = p := by
        rw [he]
        exact fun hq => h hq.symm
      have h2 : lookupFs (e :: rest) p = lookupFs rest p := by
        rw [lookupFs, List.find?_cons_of_neg _ (by simpa using hep)]
        rfl
      rw [h1, h2]
      exact ih
    · have h1 : eraseKey (e :: rest) q = e :: eraseKey rest q := by
        simp [eraseKey, List.filter_cons, he]
      rw [h1]
      by_cases hep : e.1 = p
      · rw [lookupFs, List.find?_cons_of_pos _ (by simpa using hep),
          lookupFs, List.find?_cons_of_pos _ (by simpa using hep)]
      · rw [lookupFs, List.find?_cons_of_neg _ (by simpa using hep),
          lookupFs, List.find?_cons_of_neg _ (by simpa using hep)]
        exact ih

theorem lookupFs_eraseKey_some {fs : Fs} {p q : Path} {k : Entry}
    (h : lookupFs (eraseKey fs q) p = some k) : lookupFs fs p = some k := by
  by_cases hpq : p = q
  · subst hpq
    rw [lookupFs_eraseKey_self] at h
    cases h
  · rw [lookupFs_eraseKey_ne fs hpq] at h
    exact h

theorem lookupFs_insertKey_self (fs : Fs) (p : Path) (k : Entry) :
    lookupFs (insertKey fs p k) p = some k := by
  rw [insertKey, lookupFs, List.find?_cons_of_pos _ (by simp)]
  rfl

theorem lookupFs_insertKey_ne (fs : Fs) {p q : Path} (k : Entry) (h : p ≠ q) :
    lookupFs (insertKey fs q k) p = lookupFs fs p := by
  have hqp : ¬ (q = p) := fun hq => h hq.symm
  rw [insertKey, lookupFs, List.find?_cons_of_neg _ (by simpa using hqp)]
  exact lookupFs_eraseKey_ne fs h

theorem lookupFs_eq_of_mem_nodup {fs : Fs} {p : Path} {k : Entry}
    (hnd : (fs.map Prod.fst).Nodup) (h : (p, k) ∈ fs) : lookupFs fs p = some k := by
  induction fs with
  | nil => simp at h
  | cons e rest ih =>
    rcases List.mem_cons.mp h with heq | hr
    · rw [← heq, lookupFs, List.find?_cons_of_pos _ (by simp)]
      rfl
    · have hnotin := (List.nodup_cons.mp hnd).1
      have hnd2 := (List.nodup_cons.mp hnd).2
      have hne : ¬ e.1 = p := by
        intro heq
        exact hnotin (heq ▸ List.mem_map.mpr ⟨(p, k), hr, rfl⟩)
      rw [lookupFs, List.find?_cons_of_neg _ (by simpa using hne)]
      exact ih hnd2 hr

/-! ### Directory children: decomposition and distinct names. -/

theorem childEntry_eq {e : Path × Entry} {d : Path} {v : Str × Bool}
    (hcond : (if e.1.take d.length = d ∧ (e.1.drop d.length).length = 1 then
        some ((e.1.drop d.length).headD [], decide (e.2 = Entry.dir))
      else none) = some v) :
    e.1 = d ++ [v.1] ∧ v.2 = decide (e.2 = Entry.dir) := by
  by_cases hc : e.1.take d.length = d ∧ (e.1.drop d.length).length = 1
  · rw [if_pos hc] at hcond
    have hv := Option.some.inj hcond
    have hdrop : e.1.drop d.length = [v.1] := by
      cases hd : e.1.drop d.length with
      | nil =>
        rw [hd] at hc
        simp at hc
      | cons x xs =>
        have hxs : xs = [] := by
          have := hc.2
          rw [hd] at this
          simpa using this
        subst hxs
        have hx : x = v.1 := by
          have := congrArg Prod.fst hv
          rw [hd] at this
          simpa using this
        rw [hx]
    constructor
    · rw [← hc.1, ← hdrop]
      exact (List.take_append_drop _ _).symm
    · have := congrArg Prod.snd hv
      exact this.symm
  · rw [if_neg hc] at hcond
    cases hcond

theorem children_mem_decomp {fs : Fs} {d : Path} {v : Str × Bool}
    (h : v ∈ childrenOf fs d) :
    ∃ k, (d ++ [v.1], k) ∈ fs ∧ v.2 = decide (k = Entry.dir) := by
  rw [childrenOf] at h
  rcases List.mem_filterMap.mp h with ⟨e, he, hcond⟩
  obtain ⟨hkey, hval⟩ := childEntry_eq hcond
  refine ⟨e.2, ?_, hval⟩
  rw [← hkey]
  exact he

theorem children_mem_wf {fs : Fs} {d : Path} {v : Str × Bool}
    (hwf : ∀ e ∈ fs, ∀ comp ∈ e.1, comp ≠ [] ∧ ('/' : Char) ∉ comp)
    (h : v ∈ childrenOf fs d) : v.1 ≠ [] ∧ ('/' : Char) ∉ v.1 := by
  obtain ⟨k, hk, -⟩ := children_mem_decomp h
  exact hwf (d ++ [v.1], k) hk v.1 (by simp)

theorem children_names_pairwise :
    ∀ (fs : Fs), (fs.map Prod.fst).Nodup → ∀ d,
      List.Pairwise (fun a b : Str × Bool => a.1 ≠ b.1) (childrenOf fs d) := by
  intro fs
  induction fs with
  | nil =>
    intro _ d
    simp [childrenOf]
  | cons e rest ih =>
    intro hnd d
    have hnotin := (List.nodup_cons.mp hnd).1
    have hnd2 := (List.nodup_cons.mp hnd).2
    rw [childrenOf, List.filterMap_cons]
    cases hcond : (if e.1.take d.length = d ∧ (e.1.drop d.length).length = 1 then
        some ((e.1.drop d.length).headD [], decide (e.2 = Entry.dir))
      else none) with
    | none => exact ih hnd2 d
    | some v =>
      refine List.Pairwise.cons ?_ (ih hnd2 d)
      intro w hw heq
      obtain ⟨hkey, -⟩ := childEntry_eq hcond
      obtain ⟨k, hk, -⟩ := children_mem_decomp hw
      apply hnotin
      rw [hkey, heq]
      exact List.mem_map.mpr ⟨(d ++ [w.1], k), hk, rfl⟩

theorem goIndex_nil {d : Str} (hd : d ≠ []) : goIndex [] d = none := by
  rw [goIndex]
  have : d.isPrefixOf [] = false := by
    cases d with
    | nil => exact absurd rfl hd
    | cons a t => rfl
  simp [this]

/-! ### Claim C10. -/

/-- C10: when a prefix rule's matched delimiter begins the base name (or,
dually, when a suffix rule's first delimiter occurrence is immediately
followed by the end of the base name), the extracted subdirectory token
is the empty string and the file is moved directly into the target
directory itself: the code stats target + "/" + "" (which is the target
directory, so no directory is created), then renames the file to
target + "/" + "" + "/" + name, which the filesystem resolves to
target/name. Nothing else in the filesystem changes. -/
theorem C10_empty_token_into_target (r : Rule) (fs : Fs) (name d : Str)
    (hd : d ≠ []) (hdel : r.delete = false)
    (hwfn : name ≠ [] ∧ ('/' : Char) ∉ name)
    (htgt : statRaw fs (pjoin r.target []) = some Entry.dir)
    (hfree : statRaw fs (pjoin (pjoin r.target []) name) = none)
    (hsrc : (statRaw fs (pjoin r.source name)).isSome = true) :
    (d <+: baseNameOf name →
      (goSplit (baseNameOf name) d).headD [] = [] ∧
      (prefixDelimStep r name (baseNameOf name) fs d).2.2 = none ∧
      (prefixDelimStep r name (baseNameOf name) fs d).2.1 =
        [Msg.moved name r.source (pjoin r.target [])] ∧
      statRaw (prefixDelimStep r name (baseNameOf name) fs d).1 (pjoin r.target name) =
        statRaw fs (pjoin r.source name) ∧
      statRaw (prefixDelimStep r name (baseNameOf name) fs d).1 (pjoin r.source name) =
        none ∧
      (∀ p, p ≠ normalize (pjoin r.source name) → p ≠ normalize (pjoin r.target name) →
        lookupFs (prefixDelimStep r name (baseNameOf name) fs d).1 p = lookupFs fs p)) ∧
    (∀ i, goIndex (baseNameOf name) d = some i → i + d.length = (baseNameOf name).length →
      (goSplit (baseNameOf name) d).getD 1 [] = [] ∧
      (suffixDelimStep r name (baseNameOf name) fs d).2.2 = none ∧
      (suffixDelimStep r name (baseNameOf name) fs d).2.1 =
        [Msg.moved name r.source (pjoin r.target [])] ∧
      statRaw (suffixDelimStep r name (baseNameOf name) fs d).1 (pjoin r.target name) =
        statRaw fs (pjoin r.source name) ∧
      statRaw (suffixDelimStep r name (baseNameOf name) fs d).1 (pjoin r.source name) =
        none ∧
      (∀ p, p ≠ normalize (pjoin r.source name) → p ≠ normalize (pjoin r.target name) →
        lookupFs (suffixDelimStep r name (baseNameOf name) fs d).1 p = lookupFs fs p)) := by
  obtain ⟨k, hk⟩ : ∃ k, statRaw fs (pjoin r.source name) = some k := by
    cases hsr : statRaw fs (pjoin r.source name) with
    | none => rw [hsr] at hsrc; simp at hsrc
    | some k => exact ⟨k, rfl⟩
  have hguard : (statRaw fs (pjoin r.target [])).isNone = false := by
    rw [htgt]
    rfl
  have hDD : normalize (pjoin (pjoin r.target []) name) = normalize (pjoin r.target name) := by
    rw [normalize_pjoin hwfn.2, normalize_pjoin hwfn.2, normalize_pjoin_empty]
  have hSD : normalize (pjoin r.source name) ≠ normalize (pjoin r.target name) := by
    intro heq
    rw [statRaw, heq, ← hDD] at hk
    rw [statRaw] at hfree
    rw [hfree] at hk
    cases hk
  have hmain : ∀ tokRes : HResult,
      tokRes = (insertKey (eraseKey fs (normalize (pjoin r.source name)))
          (normalize (pjoin (pjoin r.target []) name)) k,
        [Msg.moved name r.source (pjoin r.target [])], none) →
      tokRes.2.2 = none ∧
      tokRes.2.1 = [Msg.moved name r.source (pjoin r.target [])] ∧
      statRaw tokRes.1 (pjoin r.target name) = statRaw fs (pjoin r.source name) ∧
      statRaw tokRes.1 (pjoin r.source name) = none ∧
      (∀ p, p ≠ normalize (pjoin r.source name) → p ≠ normalize (pjoin r.target name) →
        lookupFs tokRes.1 p = lookupFs fs p) := by
    intro tokRes htr
    subst htr
    refine ⟨rfl, rfl, ?_, ?_, ?_⟩
    · rw [statRaw, hk, ← hDD, lookupFs_insertKey_self]
    · rw [statRaw]
      rw [lookupFs_insertKey_ne _ _ (hDD ▸ hSD)]
      exact lookupFs_eraseKey_self fs _
    · intro p hpS hpD
      rw [lookupFs_insertKey_ne _ _ (hDD ▸ hpD)]
      exact lookupFs_eraseKey_ne fs hpS
  constructor
  · intro hpre
    have hidx : goIndex (baseNameOf name) d = some 0 :=
      goIndex_eq_some_of (by simpa using hpre) (by omega)
    have hsplit : 1 < (goSplit (baseNameOf name) d).length :=
      goSplit_length_gt_one hd hidx
    have htok : (goSplit (baseNameOf name) d).headD [] = [] := by
      rw [goSplit_headD hd hidx]
      simp
    refine ⟨htok, ?_⟩
    have hstep : prefixDelimStep r name (baseNameOf name) fs d =
        (insertKey (eraseKey fs (normalize (pjoin r.source name)))
            (normalize (pjoin (pjoin r.target []) name)) k,
          [Msg.moved name r.source (pjoin r.target [])], none) := by
      rw [prefixDelimStep, if_pos hsplit, hdel]
      simp only [Bool.false_eq_true, if_false, htok, hguard, hfree, osRename, hk]
    exact hmain _ hstep
  · intro i hidx hend
    have hsplit : 1 < (goSplit (baseNameOf name) d).length :=
      goSplit_length_gt_one hd hidx
    have htok : (goSplit (baseNameOf name) d).getD 1 [] = [] := by
      rw [goSplit_getD_one hd hidx]
      rw [hend, List.drop_length]
      have hnil : goSplit ([] : Str) d = [[]] :=
        goSplit_eq_of_none hd (goIndex_nil hd)
      rw [hnil]
      rfl
    refine ⟨htok, ?_⟩
    have hstep : suffixDelimStep r name (baseNameOf name) fs d =
        (insertKey (eraseKey fs (normalize (pjoin r.source name)))
            (normalize (pjoin (pjoin r.target []) name)) k,
          [Msg.moved name r.source (pjoin r.target [])], none) := by
      rw [suffixDelimStep, if_pos hsplit, hdel]
      simp only [Bool.false_eq_true, if_false, htok, hguard, hfree, osRename, hk]
    exact hmain _ hstep

/-- A move rule and source holding one file whose base name begins with
the delimiter and one whose base name ends at the first occurrence. -/
def mrule10 : Rule :=
  { source := str "src"
    target := str "tgt"
    delete := false
    handler := str "PrefixHandler"
    extensions := []
    prefixDelimiters := [str "__"]
    suffixDelimiters := [str "--"] }

def fs10 : Fs :=
  [([str "src"], Entry.dir), ([str "src", str "__notes.txt"], Entry.file),
   ([str "src", str "notes--.txt"], Entry.file), ([str "tgt"], Entry.dir)]

/-- Witness for C10: __notes.txt (prefix, token empty) and notes--.txt
(suffix, token empty) both move directly into tgt. -/
theorem C10_empty_token_into_target_witness :
    ((str "__" : Str) ≠ [] ∧ mrule10.delete = false ∧
      ((str "__notes.txt" : Str) ≠ [] ∧ ('/' : Char) ∉ str "__notes.txt") ∧
      statRaw fs10 (pjoin mrule10.target []) = some Entry.dir ∧
      statRaw fs10 (pjoin (pjoin mrule10.target []) (str "__notes.txt")) = none ∧
      (statRaw fs10 (pjoin mrule10.source (str "__notes.txt"))).isSome = true ∧
      (str "__" : Str) <+: baseNameOf (str "__notes.txt") ∧
      goIndex (baseNameOf (str "notes--.txt")) (str "--") = some 5 ∧
      5 + (str "--").length = (baseNameOf (str "notes--.txt")).length) ∧
    ((goSplit (baseNameOf (str "__notes.txt")) (str "__")).headD [] = [] ∧
      statRaw (prefixDelimStep mrule10 (str "__notes.txt")
          (baseNameOf (str "__notes.txt")) fs10 (str "__")).1
        (pjoin mrule10.target (str "__notes.txt")) =
        statRaw fs10 (pjoin mrule10.source (str "__notes.txt"))) ∧
    ((goSplit (baseNameOf (str "notes--.txt")) (str "--")).getD 1 [] = [] ∧
      statRaw (suffixDelimStep mrule10 (str "notes--.txt")
          (baseNameOf (str "notes--.txt")) fs10 (str "--")).1
        (pjoin mrule10.target (str "notes--.txt")) =
        statRaw fs10 (pjoin mrule10.source (str "notes--.txt"))) := by
  have hpre : (str "__" : Str) <+: baseNameOf (str "__notes.txt") :=
    ⟨str "notes", by decide⟩
  have hA := C10_empty_token_into_target mrule10 fs10 (str "__notes.txt") (str "__")
    (by decide) rfl (by decide) (by decide) (by decide) (by decide)
  have hB := C10_empty_token_into_target mrule10 fs10 (str "notes--.txt") (str "--")
    (by decide) rfl (by decide) (by decide) (by decide) (by decide)
  obtain ⟨t1, -, -, t4, -, -⟩ := hA.1 hpre
  obtain ⟨u1, -, -, u4, -, -⟩ := hB.2 5 (by decide) (by decide)
  exact ⟨⟨by decide, rfl, by decide, by decide, by decide, by decide, hpre,
    by decide, by decide⟩, ⟨t1, t4⟩, ⟨u1, u4⟩⟩

/-! ### Claim C9: no-match runs are identities. -/

theorem foldSteps_id {α : Type} (step : Fs → α → HResult) (l : List α) (fs : Fs)
    (h : ∀ x ∈ l, step fs x = (fs, [], none)) : foldSteps step fs l = (fs, [], none) := by
  induction l with
  | nil => rfl
  | cons x rest ih =>
    rw [foldSteps_cons_ok step x rest fs fs [] (h x (by simp))]
    rw [ih (fun y hy => h y (by simp [hy]))]
    rfl

theorem extProcessFile_skip (r : Rule) (fs : Fs) (nd : Str × Bool)
    (h : nd.2 = true ∨ extMatches r.extensions nd.1 = false) :
    extProcessFile r fs nd = (fs, [], none) := by
  rcases nd with ⟨n, b⟩
  rcases h with hb | hm
  · simp only at hb
    subst hb
    rfl
  · cases b with
    | true => rfl
    | false => simp [extProcessFile, hm]

theorem prefixDelimStep_skip (r : Rule) (name base : Str) (fs : Fs) (d : Str)
    (h : ¬ 1 < (goSplit base d).length) :
    prefixDelimStep r name base fs d = (fs, [], none) := by
  rw [prefixDelimStep, if_neg h]

theorem suffixDelimStep_skip (r : Rule) (name base : Str) (fs : Fs) (d : Str)
    (h : ¬ 1 < (goSplit base d).length) :
    suffixDelimStep r name base fs d = (fs, [], none) := by
  rw [suffixDelimStep, if_neg h]

theorem prefixProcessFile_skip (r : Rule) (fs : Fs) (nd : Str × Bool)
    (h : nd.2 = true ∨
      ∀ d ∈ r.prefixDelimiters, ¬ 1 < (goSplit (baseNameOf nd.1) d).length) :
    prefixProcessFile r fs nd = (fs, [], none) := by
  rcases nd with ⟨n, b⟩
  rcases h with hb | hm
  · simp only at hb
    subst hb
    rfl
  · cases b with
    | true => rfl
    | false =>
      rw [prefixProcessFile]
      simp only [if_false]
      exact foldSteps_id _ _ fs
        (fun d hd => prefixDelimStep_skip r n (baseNameOf n) fs d (hm d hd))

theorem suffixProcessFile_skip (r : Rule) (fs : Fs) (nd : Str × Bool)
    (h : nd.2 = true ∨
      ∀ d ∈ r.suffixDelimiters, ¬ 1 < (goSplit (baseNameOf nd.1) d).length) :
    suffixProcessFile r fs nd = (fs, [], none) := by
  rcases nd with ⟨n, b⟩
  rcases h with hb | hm
  · simp only at hb
    subst hb
    rfl
  · cases b with
    | true => rfl
    | false =>
      rw [suffixProcessFile]
      simp only [if_false]
      exact foldSteps_id _ _ fs
        (fun d hd => suffixDelimStep_skip r n (baseNameOf n) fs d (hm d hd))

theorem contentsOf_ok_eq {fs : Fs} {p : Str} {files : List (Str × Bool)}
    (hc : contentsOf fs p = Except.ok files) :
    files = childrenOf fs (normalize p) := by
  rw [contentsOf] at hc
  cases hstat : statRaw fs p with
  | none =>
    rw [hstat] at hc
    simp at hc
  | some k =>
    cases k with
    | dir =>
      rw [hstat] at hc
      exact (Except.ok.inj hc).symm
    | file =>
      rw [hstat] at hc
      simp at hc

theorem extensionHandler_no_match (r : Rule) (fs : Fs)
    (h : ∀ nd ∈ childrenOf fs (normalize r.source),
      nd.2 = true ∨ extMatches r.extensions nd.1 = false) :
    (Rule.ExtensionHandler r fs).1 = fs ∧ (Rule.ExtensionHandler r fs).2.1 = [] := by
  rw [Rule.ExtensionHandler]
  by_cases hg : r.extensions.length < 1
  · rw [if_pos hg]
    exact ⟨rfl, rfl⟩
  · rw [if_neg hg]
    cases ht : (if r.delete then none else checkPath fs r.target) with
    | some e => exact ⟨rfl, rfl⟩
    | none =>
      cases hc : contentsOf fs r.source with
      | error e => exact ⟨rfl, rfl⟩
      | ok files =>
        have hfiles := contentsOf_ok_eq hc
        have hid := foldSteps_id (extProcessFile r) files fs
          (fun nd hnd => extProcessFile_skip r fs nd (h nd (hfiles ▸ hnd)))
        show (foldSteps (extProcessFile r) fs files).1 = fs ∧
          (foldSteps (extProcessFile r) fs files).2.1 = []
        rw [hid]
        exact ⟨rfl, rfl⟩

theorem prefixHandler_no_match (r : Rule) (fs : Fs)
    (h : ∀ nd ∈ childrenOf fs (normalize r.source),
      nd.2 = true ∨ ∀ d ∈ r.prefixDelimiters, ¬ 1 < (goSplit (baseNameOf nd.1) d).length) :
    (Rule.PrefixHandler r fs).1 = fs ∧ (Rule.PrefixHandler r fs).2.1 = [] := by
  rw [Rule.PrefixHandler]
  by_cases hg : r.prefixDelimiters.length = 0
  · rw [if_pos hg]
    exact ⟨rfl, rfl⟩
  · rw [if_neg hg]
    cases ht : (if r.delete then none else checkPath fs r.target) with
    | some e => exact ⟨rfl, rfl⟩
    | none =>
      cases hc : contentsOf fs r.source with
      | error e => exact ⟨rfl, rfl⟩
      | ok files =>
        have hfiles := contentsOf_ok_eq hc
        have hid := foldSteps_id (prefixProcessFile r) files fs
          (fun nd hnd => prefixProcessFile_skip r fs nd (h nd (hfiles ▸ hnd)))
        show (foldSteps (prefixProcessFile r) fs files).1 = fs ∧
          (foldSteps (prefixProcessFile r) fs files).2.1 = []
        rw [hid]
        exact ⟨rfl, rfl⟩

theorem suffixHandler_no_match (r : Rule) (fs : Fs)
    (h : ∀ nd ∈ childrenOf fs (normalize r.source),
      nd.2 = true ∨ ∀ d ∈ r.suffixDelimiters, ¬ 1 < (goSplit (baseNameOf nd.1) d).length) :
    (Rule.SuffixHandler r fs).1 = fs ∧ (Rule.SuffixHandler r fs).2.1 = [] := by
  rw [Rule.SuffixHandler]
  by_cases hg : r.suffixDelimiters.length = 0
  · rw [if_pos hg]
    exact ⟨rfl, rfl⟩
  · rw [if_neg hg]
    cases ht : (if r.delete then none else checkPath fs r.target) with
    | some e => exact ⟨rfl, rfl⟩
    | none =>
      cases hc : contentsOf fs r.source with
      | error e => exact ⟨rfl, rfl⟩
      | ok files =>
        have hfiles := contentsOf_ok_eq hc
        have hid := foldSteps_id (suffixProcessFile r) files fs
          (fun nd hnd => suffixProcessFile_skip r fs nd (h nd (hfiles ▸ hnd)))
        show (foldSteps (suffixProcessFile r) fs files).1 = fs ∧
          (foldSteps (suffixProcessFile r) fs files).2.1 = []
        rw [hid]
        exact ⟨rfl, rfl⟩

/-- Whether a rule's matcher accepts a file name, by rule kind: the
extension-membership test, or some delimiter splitting the base name. -/
def fileMatches (r : Rule) (name : Str) : Bool :=
  if r.handler = str "ExtensionHandler" then extMatches r.extensions name
  else if r.handler = str "PrefixHandler" then
    r.prefixDelimiters.any (fun d => decide (1 < (goSplit (baseNameOf name) d).length))
  else if r.handler = str "SuffixHandler" then
    r.suffixDelimiters.any (fun d => decide (1 < (goSplit (baseNameOf name) d).length))
  else false

/-- C9: running a rule over a source directory in which no file name
matches any of the rule's criteria leaves the filesystem unchanged and
logs no action message: no file is moved, renamed or deleted and no
directory is created (this also covers runs that stop early with a
configuration, validation or listing error, which equally change
nothing). -/
theorem C9_no_match_identity (r : Rule) (fs : Fs)
    (h : ∀ nd ∈ childrenOf fs (normalize r.source),
      nd.2 = true ∨ fileMatches r nd.1 = false) :
    (Rule.Handler r fs).1 = fs ∧ (Rule.Handler r fs).2.1 = [] := by
  rw [Rule.Handler]
  by_cases h1 : r.handler = str "ExtensionHandler"
  · rw [if_pos h1]
    refine extensionHandler_no_match r fs (fun nd hnd => ?_)
    have := h nd hnd
    rwa [fileMatches, if_pos h1] at this
  · rw [if_neg h1]
    by_cases h2 : r.handler = str "PrefixHandler"
    · rw [if_pos h2]
      refine prefixHandler_no_match r fs (fun nd hnd => ?_)
      have hx := h nd hnd
      rw [fileMatches, if_neg h1, if_pos h2] at hx
      rcases hx with hdir | hany
      · exact Or.inl hdir
      · refine Or.inr (fun d hd => ?_)
        have := List.any_eq_false.mp hany d hd
        simpa using this
    · rw [if_neg h2]
      by_cases h3 : r.handler = str "SuffixHandler"
      · rw [if_pos h3]
        refine suffixHandler_no_match r fs (fun nd hnd => ?_)
        have hx := h nd hnd
        rw [fileMatches, if_neg h1, if_neg h2, if_pos h3] at hx
        rcases hx with hdir | hany
        · exact Or.inl hdir
        · refine Or.inr (fun d hd => ?_)
          have := List.any_eq_false.mp hany d hd
          simpa using this
      · rw [if_neg h3]
        exact ⟨rfl, rfl⟩

/-- A source whose only file matches nothing in the txt rule. -/
def fsNoMatch : Fs :=
  [([str "src"], Entry.dir), ([str "src", str "x.doc"], Entry.file),
   ([str "tgt"], Entry.dir)]

/-- Witness for C9 at the txt rule over a source holding only x.doc. -/
theorem C9_no_match_identity_witness :
    (∀ nd ∈ childrenOf fsNoMatch (normalize eruleTxt.source),
      nd.2 = true ∨ fileMatches eruleTxt nd.1 = false) ∧
    (Rule.Handler eruleTxt fsNoMatch).1 = fsNoMatch ∧
    (Rule.Handler eruleTxt fsNoMatch).2.1 = [] :=
  ⟨by decide, C9_no_match_identity eruleTxt fsNoMatch (by decide)⟩

/-! ### Claim C6: delete-mode skips target validation; move-mode
validates the target first. -/

theorem checkPath_isPathError {fs : Fs} {p : Str} {e : DErr}
    (h : checkPath fs p = some e) : e.isPathError = true := by
  rw [checkPath] at h
  by_cases hp : p = []
  · rw [if_pos hp] at h
    cases h
    rfl
  · rw [if_neg hp] at h
    cases hstat : statRaw fs p with
    | none =>
      rw [hstat] at h
      cases h
      rfl
    | some k =>
      cases k with
      | dir =>
        rw [hstat] at h
        cases h
      | file =>
        rw [hstat] at h
        cases h
        rfl

/-- A delete-mode run of the extension handler's file loop: it never
errors, only ever erases entries, and erases exactly the matching files
of the listing. -/
theorem extDeleteRun (r : Rule) (hdel : r.delete = true) :
    ∀ (files : List (Str × Bool)) (fs : Fs),
      (∀ nd ∈ files, nd.2 = false → extMatches r.extensions nd.1 = true →
        (statRaw fs (pjoin r.source nd.1)).isSome = true) →
      List.Pairwise (fun a b : Str × Bool => a.1 ≠ b.1) files →
      (∀ nd₁ ∈ files, ∀ nd₂ ∈ files,
        normalize (pjoin r.source nd₁.1) = normalize (pjoin r.source nd₂.1) →
        nd₁.1 = nd₂.1) →
      (foldSteps (extProcessFile r) fs files).2.2 = none ∧
      (∀ p k, lookupFs (foldSteps (extProcessFile r) fs files).1 p = some k →
        lookupFs fs p = some k) ∧
      (∀ nd ∈ files, nd.2 = false → extMatches r.extensions nd.1 = true →
        lookupFs (foldSteps (extProcessFile r) fs files).1
          (normalize (pjoin r.source nd.1)) = none) := by
  intro files
  induction files with
  | nil =>
    intro fs _ _ _
    refine ⟨rfl, fun p k h => h, ?_⟩
    intro nd hnd
    simp at hnd
  | cons nd rest ih =>
    intro fs hpres hpw hinj
    rcases nd with ⟨n, b⟩
    have hpwrest := (List.pairwise_cons.mp hpw).2
    have hpwhead := (List.pairwise_cons.mp hpw).1
    by_cases hact : b = false ∧ extMatches r.extensions n = true
    · obtain ⟨hb, hm⟩ := hact
      subst hb
      obtain ⟨k0, hk0⟩ : ∃ k0, statRaw fs (pjoin r.source n) = some k0 := by
        have := hpres (n, false) (by simp) rfl hm
        cases hsr : statRaw fs (pjoin r.source n) with
        | none => rw [hsr] at this; simp at this
        | some k0 => exact ⟨k0, rfl⟩
      have hstep : extProcessFile r fs (n, false) =
          (eraseKey fs (normalize (pjoin r.source n)), [Msg.deleted n r.source], none) := by
        simp only [extProcessFile, hm, hdel, osRemove, hk0]
        simp
      rw [foldSteps_cons_ok (extProcessFile r) (n, false) rest fs
        (eraseKey fs (normalize (pjoin r.source n))) [Msg.deleted n r.source] hstep]
      have hne : ∀ nd₂ ∈ rest, normalize (pjoin r.source nd₂.1) ≠
          normalize (pjoin r.source n) := by
        intro nd₂ hnd₂ heq
        have := hinj nd₂ (by simp [hnd₂]) (n, false) (by simp) heq
        exact hpwhead nd₂ hnd₂ this.symm
      have ihres := ih (eraseKey fs (normalize (pjoin r.source n)))
        (by
          intro nd₂ hnd₂ hb₂ hm₂
          rw [statRaw, lookupFs_eraseKey_ne fs (hne nd₂ hnd₂)]
          exact hpres nd₂ (by simp [hnd₂]) hb₂ hm₂)
        hpwrest
        (fun nd₁ h₁ nd₂ h₂ => hinj nd₁ (by simp [h₁]) nd₂ (by simp [h₂]))
      refine ⟨ihres.1, ?_, ?_⟩
      · intro p k h
        exact lookupFs_eraseKey_some (ihres.2.1 p k h)
      · intro nd₂ hnd₂ hb₂ hm₂
        rcases List.mem_cons.mp hnd₂ with heq | hr
        · have hkey : normalize (pjoin r.source nd₂.1) = normalize (pjoin r.source n) := by
            rw [heq]
          rw [hkey]
          cases hres : lookupFs (foldSteps (extProcessFile r)
              (eraseKey fs (normalize (pjoin r.source n))) rest).1
              (normalize (pjoin r.source n)) with
          | none => rfl
          | some k =>
            have := ihres.2.1 _ _ hres
            rw [lookupFs_eraseKey_self] at this
            cases this
        · exact ihres.2.2 nd₂ hr hb₂ hm₂
    · have hskip : extProcessFile r fs (n, b) = (fs, [], none) := by
        refine extProcessFile_skip r fs (n, b) ?_
        by_cases hb : b = true
        · exact Or.inl hb
        · have hb₂ : b = false := by
            cases b
            · rfl
            · exact absurd rfl hb
          refine Or.inr ?_
          cases hm : extMatches r.extensions n with
          | false => rfl
          | true => exact absurd ⟨hb₂, hm⟩ hact
      rw [foldSteps_cons_ok (extProcessFile r) (n, b) rest fs fs [] hskip]
      have ihres := ih fs
        (fun nd₂ hnd₂ => hpres nd₂ (by simp [hnd₂]))
        hpwrest
        (fun nd₁ h₁ nd₂ h₂ => hinj nd₁ (by simp [h₁]) nd₂ (by simp [h₂]))
      refine ⟨ihres.1, ihres.2.1, ?_⟩
      intro nd₂ hnd₂ hb₂ hm₂
      rcases List.mem_cons.mp hnd₂ with heq | hr
      · exfalso
        rw [heq] at hb₂ hm₂
        exact hact ⟨hb₂, hm₂⟩
      · exact ihres.2.2 nd₂ hr hb₂ hm₂

/-- C6: with deleteFlag true, the target's existence/type validation is
skipped and the handler's behavior is entirely independent of the target
path (first conjunct: any target path gives the identical run), and
every matching file is removed with no error regardless of target
validity (second conjunct, over any well-formed filesystem); with
deleteFlag false, the handler validates the target before touching any
file and fails with a path error when that validation fails (third
conjunct). -/
theorem C6_delete_skips_target_validation (r : Rule) (fs : Fs) (t : Str) :
    (r.delete = true →
      Rule.ExtensionHandler { r with target := t } fs = Rule.ExtensionHandler r fs) ∧
    (r.delete = true → ¬ r.extensions.length < 1 →
      (fs.map Prod.fst).Nodup →
      (∀ e ∈ fs, ∀ comp ∈ e.1, comp ≠ [] ∧ ('/' : Char) ∉ comp) →
      statRaw fs r.source = some Entry.dir →
      (Rule.ExtensionHandler r fs).2.2 = none ∧
      (∀ nd ∈ childrenOf fs (normalize r.source), nd.2 = false →
        extMatches r.extensions nd.1 = true →
        statRaw (Rule.ExtensionHandler r fs).1 (pjoin r.source nd.1) = none)) ∧
    (r.delete = false → ¬ r.extensions.length < 1 → ∀ e, checkPath fs r.target = some e →
      Rule.ExtensionHandler r fs = (fs, [], some e) ∧ e.isPathError = true) := by
  refine ⟨?_, ?_, ?_⟩
  · intro hdel
    have hstep : extProcessFile { r with target := t } = extProcessFile r := by
      funext fs' f
      simp [extProcessFile, hdel]
    rw [Rule.ExtensionHandler, Rule.ExtensionHandler, hstep]
    simp [hdel]
  · intro hdel hg hnd hwf hsrc
    have hco : contentsOf fs r.source =
        Except.ok (childrenOf fs (normalize r.source)) := by
      rw [contentsOf, hsrc]
    have hrun := extDeleteRun r hdel (childrenOf fs (normalize r.source)) fs
      (by
        intro nd hnd₂ hb hm
        obtain ⟨k, hk, -⟩ := children_mem_decomp hnd₂
        obtain ⟨hne, hsl⟩ := children_mem_wf hwf hnd₂
        rw [statRaw_pjoin hsl hne, lookupFs_eq_of_mem_nodup hnd hk]
        rfl)
      (children_names_pairwise fs hnd (normalize r.source))
      (by
        intro nd₁ h₁ nd₂ h₂ heq
        obtain ⟨hne₁, hsl₁⟩ := children_mem_wf hwf h₁
        obtain ⟨hne₂, hsl₂⟩ := children_mem_wf hwf h₂
        rw [normalize_pjoin hsl₁, if_neg hne₁, normalize_pjoin hsl₂, if_neg hne₂] at heq
        have := List.append_cancel_left heq
        simpa using this)
    have hhandler : Rule.ExtensionHandler r fs =
        foldSteps (extProcessFile r) fs (childrenOf fs (normalize r.source)) := by
      rw [Rule.ExtensionHandler, if_neg hg]
      simp [hdel, hco]
    rw [hhandler]
    refine ⟨hrun.1, ?_⟩
    intro nd hnd₂ hb hm
    obtain ⟨hne, hsl⟩ := children_mem_wf hwf hnd₂
    rw [statRaw, normalize_pjoin hsl, if_neg hne]
    have := hrun.2.2 nd hnd₂ hb hm
    rw [normalize_pjoin hsl, if_neg hne] at this
    exact this
  · intro hdel hg e he
    constructor
    · rw [Rule.ExtensionHandler, if_neg hg]
      simp only [hdel, he]
      simp
    · exact checkPath_isPathError he

/-- A delete-rule whose target path exists nowhere on the filesystem. -/
def edelRule : Rule :=
  { source := str "src"
    target := str "bogus"
    delete := true
    handler := str "ExtensionHandler"
    extensions := [str "del"]
    prefixDelimiters := []
    suffixDelimiters := [] }

def fsDel : Fs :=
  [([str "src"], Entry.dir), ([str "src", str "junk.del"], Entry.file),
   ([str "src", str "keep.txt"], Entry.file)]

/-- The txt move-rule pointed at a nonexistent target. -/
def eruleBadTarget : Rule := { eruleTxt with target := str "missing" }

/-- Witness for C6: with delete on, the run is identical whatever the
target and junk.del is removed although the target path bogus does not
exist; with delete off and target missing, the handler fails with a path
error leaving the filesystem untouched. -/
theorem C6_delete_skips_target_validation_witness :
    (edelRule.delete = true ∧
      ¬ edelRule.extensions.length < 1 ∧
      (fsDel.map Prod.fst).Nodup ∧
      (∀ e ∈ fsDel, ∀ comp ∈ e.1, comp ≠ [] ∧ ('/' : Char) ∉ comp) ∧
      statRaw fsDel edelRule.source = some Entry.dir ∧
      eruleBadTarget.delete = false ∧
      checkPath fsSimple eruleBadTarget.target = some (DErr.pathNoExist (str "missing"))) ∧
    Rule.ExtensionHandler { edelRule with target := str "elsewhere" } fsDel =
      Rule.ExtensionHandler edelRule fsDel ∧
    ((Rule.ExtensionHandler edelRule fsDel).2.2 = none ∧
      (∀ nd ∈ childrenOf fsDel (normalize edelRule.source), nd.2 = false →
        extMatches edelRule.extensions nd.1 = true →
        statRaw (Rule.ExtensionHandler edelRule fsDel).1 (pjoin edelRule.source nd.1) =
          none)) ∧
    (Rule.ExtensionHandler eruleBadTarget fsSimple =
        (fsSimple, [], some (DErr.pathNoExist (str "missing"))) ∧
      (DErr.pathNoExist (str "missing")).isPathError = true) := by
  have hA := C6_delete_skips_target_validation edelRule fsDel (str "elsewhere")
  have hB := C6_delete_skips_target_validation eruleBadTarget fsSimple (str "elsewhere")
  exact ⟨⟨rfl, by decide, by decide, by decide, by decide, rfl, by decide⟩,
    hA.1 rfl,
    hA.2.1 rfl (by decide) (by decide) (by decide) (by decide),
    hB.2.2 rfl (by decide) _ (by decide)⟩

end Dirculese
